import Mathlib

/-!
Verification development for the Makhos (Thai checkers) engine core.

The definitions below are a shallow embedding of the TypeScript sources:
  * `src/core/bitboards.ts`  — 32-dark-square indexing, step tables, rays
  * `src/core/position.ts`   — position record, initial position, draw test
  * `src/core/movegen.ts`    — move generation and `applyMove`
  * `src/core/search/zobrist.ts` — 32-bit Zobrist hashing
  * `src/core/search/tt.ts`  — transposition table (a JS `Map` is modelled
    as an association list with unique keys)
  * `src/core/eval.ts`       — the evaluator (the newer variant, with the
    capture-swing term, which the specification declares normative)
  * `src/core/search/alphabeta.ts` — both search variants: the newer one
    (extension budget, no inactivity tests) and the older one (inactivity
    tests at every node).

JavaScript 32-bit unsigned integers are modelled as `Nat` kept below `2^32`;
`x >>> 0` is a no-op on such values, `~x` is `not32`, and `| 0` at the end of
the evaluator is `toInt32`.  JavaScript floating point appears only in the
evaluator (`/ 10`, `/ cnt`, and the game-phase blend) where every intermediate
value is a small exact rational, so those computations are modelled in `ℚ`.
Recursions that the source drives by mutation/board shrinking are given an
explicit fuel argument; the fuel is chosen large enough (and, where a claim
needs it, proved large enough) that the zero-fuel branch is never taken on
the call paths the source can reach.
-/

namespace Makhos

/-! ## Bit helpers (`src/core/bitboards.ts`) -/

/-- `B1(i) = (1 << i) >>> 0`. -/
def b1 (i : Nat) : Nat := 1 <<< i

/-- JS `~x >>> 0` for a `u32` value `x`. -/
def not32 (x : Nat) : Nat := 0xFFFFFFFF ^^^ x

/-- JS `Math.imul`: the low 32 bits of the product. -/
def mul32 (a b : Nat) : Nat := (a * b) % 2 ^ 32

/-- JS `ToInt32` of an integer value: wrap into `[-2^31, 2^31)`. -/
def toInt32 (t : Int) : Int := (t + 2 ^ 31) % 2 ^ 32 - 2 ^ 31

/-- JS `x | 0` for a rational `x`: truncate toward zero, then wrap. -/
def ratToInt32 (q : ℚ) : Int := toInt32 (if 0 ≤ q then ⌊q⌋ else -⌊-q⌋)

/-- JS `Math.round` (half toward `+∞`). -/
def jsRound (q : ℚ) : Int := ⌊q + 1 / 2⌋

/-- The four diagonal directions. -/
inductive Dir where
  | UL | UR | DL | DR
deriving DecidableEq, Repr

/-- The dark squares `(r, c)` (with `(r + c)` odd) in row-major order; index
`i` of the engine is position `i` in this list (`buildMaps`). -/
def darkRCs : List (Nat × Nat) :=
  (List.range 8).flatMap fun r =>
    (List.range 8).filterMap fun c =>
      if (r + c) % 2 = 1 then some (r, c) else none

/-- `toRC`: square index to `(row, column)`. -/
def toRC (i : Nat) : Nat × Nat := darkRCs.getD i (0, 0)

/-- A `Step` entry of the `STEPS` table. -/
structure Step where
  -- the source field is named `to`, a Lean keyword
  toSq : Nat
  dir : Dir
deriving DecidableEq, Repr

/-- Row/column offsets of each direction (`buildAdjacency`). -/
def dirOffset : Dir → Int × Int
  | Dir.UL => (-1, -1)
  | Dir.UR => (-1, 1)
  | Dir.DL => (1, -1)
  | Dir.DR => (1, 1)

/-- `toIndex(r, c)` for possibly off-board integer coordinates: the dark
square index, or `none` where the source stores `-1`. -/
def toIndex? (r c : Int) : Option Nat :=
  if 0 ≤ r ∧ r < 8 ∧ 0 ≤ c ∧ c < 8 then
    let i := darkRCs.indexOf (r.toNat, c.toNat)
    if i < darkRCs.length then some i else none
  else none

/-- `STEPS[i]`: the adjacent dark squares of `i`, in direction order
UL, UR, DL, DR (`buildAdjacency`). -/
def STEPS (i : Nat) : List Step :=
  [Dir.UL, Dir.UR, Dir.DL, Dir.DR].filterMap fun d =>
    let rc := toRC i
    let o := dirOffset d
    match toIndex? ((rc.1 : Int) + o.1) ((rc.2 : Int) + o.2) with
    | some j => some ⟨j, d⟩
    | none => none

/-- `nextInDir`: the neighbour of `from` in direction `dir` (`-1` in the
source is `none` here). -/
def nextInDir (frm : Nat) (dir : Dir) : Option Nat :=
  ((STEPS frm).find? fun s => s.dir = dir).map Step.toSq

/-- The ray of successive squares from `frm` in direction `dir`
(the generator `ray` of the source; rays have at most 7 squares, so fuel 32
never runs out). -/
def rayAux (dir : Dir) : Nat → Nat → List Nat
  | 0, _ => []
  | fuel + 1, cur =>
    match nextInDir cur dir with
    | none => []
    | some nxt => nxt :: rayAux dir fuel nxt

def rayL (frm : Nat) (dir : Dir) : List Nat := rayAux dir 32 frm

/-- Ascending list of set bit indices of a `u32` (the generator `bits`). -/
def bitsList (x : Nat) : List Nat :=
  (List.range 32).filter fun i => x.testBit i

/-- `bitCount` of a `u32`. -/
def bitCount (x : Nat) : Nat := (bitsList x).length

/-! ## Position (`src/core/position.ts`) -/

/-- The side to move: the source uses `1` for P1 and `-1` for P2. -/
inductive Side where
  | P1 | P2
deriving DecidableEq, Repr

def Side.other : Side → Side
  | Side.P1 => Side.P2
  | Side.P2 => Side.P1

structure Position where
  side : Side
  p1Men : Nat
  p1Kings : Nat
  p2Men : Nat
  p2Kings : Nat
  halfmoveClock : Nat
deriving DecidableEq, Repr

def initialPosition : Position :=
  { side := Side.P1
    p1Men := ([24, 25, 26, 27, 28, 29, 30, 31].foldl (fun a i => a ||| b1 i) 0)
    p1Kings := 0
    p2Men := ([0, 1, 2, 3, 4, 5, 6, 7].foldl (fun a i => a ||| b1 i) 0)
    p2Kings := 0
    halfmoveClock := 0 }

def occupied (p : Position) : Nat := p.p1Men ||| p.p1Kings ||| p.p2Men ||| p.p2Kings

def DRAW_PIECE_THRESHOLD : Nat := 2

def isDrawByInactivity (p : Position) : Bool :=
  let p1Count := bitCount (p.p1Men ||| p.p1Kings)
  let p2Count := bitCount (p.p2Men ||| p.p2Kings)
  (p1Count ≤ DRAW_PIECE_THRESHOLD && p2Count ≤ DRAW_PIECE_THRESHOLD)
    && 20 ≤ p.halfmoveClock

def sideMen (p : Position) : Nat := match p.side with | Side.P1 => p.p1Men | Side.P2 => p.p2Men
def sideKings (p : Position) : Nat := match p.side with | Side.P1 => p.p1Kings | Side.P2 => p.p2Kings
def oppMen (p : Position) : Nat := match p.side with | Side.P1 => p.p2Men | Side.P2 => p.p1Men
def oppKings (p : Position) : Nat := match p.side with | Side.P1 => p.p2Kings | Side.P2 => p.p1Kings

def isTerminal (p : Position) : Bool :=
  bitCount (sideMen p ||| sideKings p) = 0 || bitCount (oppMen p ||| oppKings p) = 0

/-! ## Moves and `applyMove` (`src/core/movegen.ts`) -/

structure Move where
  -- the source fields are named `from` and `to`, Lean keywords
  fromSq : Nat
  toSq : Nat
  captured : List Nat
  promote : Bool
deriving DecidableEq, Repr

def LAST_RANK_P1 : List Nat := [0, 1, 2, 3]
def LAST_RANK_P2 : List Nat := [28, 29, 30, 31]

def willPromote (side : Side) (sq : Nat) : Bool :=
  match side with
  | Side.P1 => LAST_RANK_P1.contains sq
  | Side.P2 => LAST_RANK_P2.contains sq

/-- The capture-removal loop of `applyMove`: clear each captured square from
the opposing men board if it is there, else from the opposing kings board. -/
def clearCaptured : List Nat → Nat → Nat → Nat × Nat
  | [], opMenB, opKingsB => (opMenB, opKingsB)
  | c :: rest, opMenB, opKingsB =>
    if opMenB &&& b1 c ≠ 0 then clearCaptured rest (opMenB &&& not32 (b1 c)) opKingsB
    else clearCaptured rest opMenB (opKingsB &&& not32 (b1 c))

/-- `applyMove` on the mover's four boards; returns
`(myMen, myKings, opMen, opKings)` after the move. -/
def applyMoveCore (myMenB myKingsB opMenB opKingsB : Nat) (m : Move) :
    Nat × Nat × Nat × Nat :=
  let fromBit := b1 m.fromSq
  let toBit := b1 m.toSq
  let movingKing := myKingsB &&& fromBit ≠ 0
  let myKings1 := if movingKing then myKingsB &&& not32 fromBit else myKingsB
  let myMen1 := if movingKing then myMenB else myMenB &&& not32 fromBit
  let myKings2 := if movingKing then myKings1 ||| toBit else myKings1
  let myMen2 := if movingKing then myMen1 else myMen1 ||| toBit
  let cleared := clearCaptured m.captured opMenB opKingsB
  let myMen3 := if m.promote ∧ ¬movingKing then myMen2 &&& not32 toBit else myMen2
  let myKings3 := if m.promote ∧ ¬movingKing then myKings2 ||| toBit else myKings2
  (myMen3, myKings3, cleared.1, cleared.2)

def applyMove (p : Position) (m : Move) : Position :=
  match p.side with
  | Side.P1 =>
    let r := applyMoveCore p.p1Men p.p1Kings p.p2Men p.p2Kings m
    { side := Side.P2, p1Men := r.1, p1Kings := r.2.1, p2Men := r.2.2.1,
      p2Kings := r.2.2.2,
      halfmoveClock := if m.captured.length > 0 then 0 else p.halfmoveClock + 1 }
  | Side.P2 =>
    let r := applyMoveCore p.p2Men p.p2Kings p.p1Men p.p1Kings m
    { side := Side.P1, p1Men := r.2.2.1, p1Kings := r.2.2.2, p2Men := r.1,
      p2Kings := r.2.1,
      halfmoveClock := if m.captured.length > 0 then 0 else p.halfmoveClock + 1 }

/-! ## Move generation (`src/core/movegen.ts`) -/

/-- Is `dir` a forward direction for `side`?  Men move and capture forward
only: the source `continue`s on DL/DR for P1 and on UL/UR for P2. -/
def forwardDir (side : Side) (dir : Dir) : Bool :=
  match side with
  | Side.P1 => dir = Dir.UL || dir = Dir.UR
  | Side.P2 => dir = Dir.DL || dir = Dir.DR

/-- One step of the men-capture scan from `cur`: the adjacent forward enemies
that can be jumped, with their landing squares (the loop body of `dfs` in
`genMenCapturesFrom`). -/
def menJumpTargets (side : Side) (cur myMenB myKingsB opMenB opKingsB : Nat) :
    List (Nat × Nat) :=
  (STEPS cur).filterMap fun st =>
    if forwardDir side st.dir then
      let over := st.toSq
      if (opMenB ||| opKingsB).testBit over then
        match nextInDir over st.dir with
        | some landing =>
          if (myMenB ||| myKingsB ||| opMenB ||| opKingsB).testBit landing then none
          else some (over, landing)
        | none => none
      else none
    else none

/-- The DFS of `genMenCapturesFrom`.  The source recurses while mutating
`path`/`caps` stacks and emitting into `out`; here the emitted moves are the
return value and the stacks are arguments.  `fuel` only bounds the recursion:
every recursive call removes one enemy bit, so fuel 33 never reaches 0. -/
def menDfs (side : Side) (from0 : Nat) :
    Nat → Nat → Nat → Nat → Nat → Nat → List Nat → List Nat → List Move
  | 0, _, _, _, _, _, _, _ => []
  | fuel + 1, cur, myMenB, myKingsB, opMenB, opKingsB, path, caps =>
    let js := menJumpTargets side cur myMenB myKingsB opMenB opKingsB
    if js.isEmpty then
      if caps.isEmpty then []
      else
        let lastTo := path.getLast?.getD cur
        [⟨from0, lastTo, caps, willPromote side lastTo⟩]
    else
      js.flatMap fun ol =>
        let over := ol.1
        let landing := ol.2
        let capturedWasKing := opKingsB.testBit over
        let movingKing := myKingsB.testBit cur
        let myMenN := if movingKing then myMenB
          else myMenB &&& not32 (b1 cur) ||| b1 landing
        let myKingsN := if movingKing then myKingsB &&& not32 (b1 cur) ||| b1 landing
          else myKingsB
        let opMenN := if capturedWasKing then opMenB else opMenB &&& not32 (b1 over)
        let opKingsN := if capturedWasKing then opKingsB &&& not32 (b1 over) else opKingsB
        menDfs side from0 fuel landing myMenN myKingsN opMenN opKingsN
          (path ++ [landing]) (caps ++ [over])

def FUEL : Nat := 33

def genMenCapturesFrom (p : Position) (frm : Nat) : List Move :=
  menDfs p.side frm FUEL frm (sideMen p) (sideKings p) (oppMen p) (oppKings p) [] []

/-- The per-direction ray scan of `genKingCapturesFrom`: walk empty squares,
stop on a friendly piece, and on the first enemy require the next ray square
to be empty — that square is the landing.  `kingLand` is the post-enemy part
of the loop; only the immediate landing square is ever produced. -/
def kingLand (myB opB : Nat) (enemy : Nat) : List Nat → Option (Nat × Nat)
  | [] => none
  | sq :: _ =>
    if myB.testBit sq then none
    else if opB.testBit sq then none
    else some (enemy, sq)

def kingScan (myB opB : Nat) : List Nat → Option (Nat × Nat)
  | [] => none
  | sq :: rest =>
    if myB.testBit sq then none
    else if opB.testBit sq then kingLand myB opB sq rest
    else kingScan myB opB rest

/-- The single jump a king can make from `cur` in direction `dir`: the
captured enemy square and the landing square immediately beyond it. -/
def kingJumpInDir (myB opB : Nat) (cur : Nat) (dir : Dir) : Option (Nat × Nat) :=
  kingScan myB opB (rayL cur dir)

/-- The DFS of `genKingCapturesFrom`, with the same fuel convention as
`menDfs`. -/
def kingDfs (from0 : Nat) :
    Nat → Nat → Nat → Nat → Nat → Nat → List Nat → List Nat → List Move
  | 0, _, _, _, _, _, _, _ => []
  | fuel + 1, cur, myMenB, myKingsB, opMenB, opKingsB, path, caps =>
    let js := ([Dir.UL, Dir.UR, Dir.DL, Dir.DR]).filterMap fun dir =>
      kingJumpInDir (myMenB ||| myKingsB) (opMenB ||| opKingsB) cur dir
    if js.isEmpty then
      if caps.isEmpty then []
      else [⟨from0, path.getLast?.getD cur, caps, false⟩]
    else
      js.flatMap fun el =>
        let enemy := el.1
        let landing := el.2
        let capturedWasKing := opKingsB.testBit enemy
        let myKingsN := myKingsB &&& not32 (b1 cur) ||| b1 landing
        let opMenN := if capturedWasKing then opMenB else opMenB &&& not32 (b1 enemy)
        let opKingsN := if capturedWasKing then opKingsB &&& not32 (b1 enemy) else opKingsB
        kingDfs from0 fuel landing myMenB myKingsN opMenN opKingsN
          (path ++ [landing]) (caps ++ [enemy])

def genKingCapturesFrom (p : Position) (frm : Nat) : List Move :=
  if (sideKings p).testBit frm then
    kingDfs frm FUEL frm (sideMen p) (sideKings p) (oppMen p) (oppKings p) [] []
  else []

/-- Quiet moves of men: one forward step onto an empty square. -/
def quietMenMoves (p : Position) : List Move :=
  (bitsList (sideMen p)).flatMap fun frm =>
    (STEPS frm).filterMap fun st =>
      if forwardDir p.side st.dir then
        if (occupied p).testBit st.toSq then none
        else some ⟨frm, st.toSq, [], willPromote p.side st.toSq⟩
      else none

/-- Quiet moves of kings: fly along each ray until blocked. -/
def quietKingMoves (p : Position) : List Move :=
  (bitsList (sideKings p)).flatMap fun frm =>
    ([Dir.UL, Dir.UR, Dir.DL, Dir.DR]).flatMap fun dir =>
      ((rayL frm dir).takeWhile fun sq => ¬(occupied p).testBit sq).map fun sq =>
        (⟨frm, sq, [], false⟩ : Move)

/-- `generateMoves`: all capture chains of men then kings; if any exist they
are returned as-is (note: without any maximum-length filtering), else the
quiet moves. -/
def generateMoves (p : Position) : List Move :=
  let captures :=
    ((bitsList (sideMen p)).flatMap fun frm => genMenCapturesFrom p frm) ++
      ((bitsList (sideKings p)).flatMap fun frm => genKingCapturesFrom p frm)
  if captures.isEmpty then quietMenMoves p ++ quietKingMoves p else captures

/-! ## Zobrist hashing (`src/core/search/zobrist.ts`)

The source seeds a splitmix-style generator with `0xC0FFEE`; the `n`-th call
advances the seed to `0xC0FFEE + n * 0x6D2B79F5 (mod 2^32)` and mixes it.
All the JS arithmetic (`Math.imul`, `^`, `>>>`, `|`) acts on the 32-bit
pattern, so it is modelled with `Nat` arithmetic mod `2^32`; the float
round-trip `(rng() * 0x100000000) >>> 0` is exact and returns the mixed
32-bit word itself. -/

def mix32 (t0 : Nat) : Nat :=
  let t1 := mul32 (t0 ^^^ (t0 >>> 15)) (t0 ||| 1)
  let t2 := t1 ^^^ ((t1 + mul32 (t1 ^^^ (t1 >>> 7)) (t1 ||| 61)) % 2 ^ 32)
  t2 ^^^ (t2 >>> 14)

/-- The `n`-th 32-bit output of the seeded generator (1-based). -/
def zOut (n : Nat) : Nat := mix32 ((0xC0FFEE + n * 0x6D2B79F5) % 2 ^ 32)

/-- `Z_SIDE` is drawn first. -/
def Z_SIDE : Nat := zOut 1

/-- `Z_PIECE[t][s]` is drawn next, in row-major order. -/
def zPiece (t s : Nat) : Nat := zOut (2 + 32 * t + s)

def hashPosition (p : Position) : Nat :=
  let h := (bitsList p.p1Men).foldl (fun h i => h ^^^ zPiece 0 i) 0
  let h := (bitsList p.p1Kings).foldl (fun h i => h ^^^ zPiece 1 i) h
  let h := (bitsList p.p2Men).foldl (fun h i => h ^^^ zPiece 2 i) h
  let h := (bitsList p.p2Kings).foldl (fun h i => h ^^^ zPiece 3 i) h
  if p.side = Side.P1 then h ^^^ Z_SIDE else h

/-! ## Transposition table (`src/core/search/tt.ts`)

A JS `Map<number, TTEntry>` is modelled as an association list whose keys
are unique; `Map.get` is `find?` by key, `Map.set` replaces the binding in
place or appends a fresh one. -/

inductive Bound where
  | EXACT | LOWER | UPPER
deriving DecidableEq, Repr

structure TTEntry where
  key : Nat
  depth : Int
  score : Int
  move : Option Int
  bound : Bound
deriving DecidableEq, Repr

def mapGet (k : Nat) (t : List TTEntry) : Option TTEntry :=
  t.find? fun e => e.key = k

def mapSet (e : TTEntry) : List TTEntry → List TTEntry
  | [] => [e]
  | x :: xs => if x.key = e.key then e :: xs else x :: mapSet e xs

/-- `TT.put`: replace iff absent or at least as deep. -/
def ttPut (t : List TTEntry) (e : TTEntry) : List TTEntry :=
  match mapGet e.key t with
  | none => mapSet e t
  | some prev => if prev.depth ≤ e.depth then mapSet e t else t

/-- `TT.get`. -/
def ttGet (t : List TTEntry) (k : Nat) : Option TTEntry := mapGet k t

/-! ## Evaluator (`src/core/eval.ts`, the newer variant with the
capture-swing term; the specification declares this variant normative).
Counts are `Nat`; differences are formed in `Int`; the division by 10, the
king-proximity average and the game-phase blend are exact rationals, and the
final `score | 0` is `ratToInt32`. -/

def START_TOTAL : Nat := 16

def WB_man : Int := 100
def WB_king : Int := 210
def WB_mobilityMen : Int := 2
def WB_mobilityKing : Int := 3
def WB_center : Int := 2
def WB_promoteProgress : Int := 6
def WB_backRankGuard : Int := 3
def WB_kingProximity : Int := 2
def WB_trappedKing : Int := -12
def WB_simplification : Int := 6
def WB_captureSwing : Int := 90
def WB_captureTargets : Int := 45

def promotionDistanceSum (p : Position) (side : Side) : Int :=
  let men := match side with | Side.P1 => p.p1Men | Side.P2 => p.p2Men
  (bitsList men).foldl
    (fun s i => s + (match side with
      | Side.P1 => ((toRC i).1 : Int)
      | Side.P2 => 7 - ((toRC i).1 : Int))) 0

def centerScore (p : Position) (side : Side) : Int :=
  let men := match side with | Side.P1 => p.p1Men | Side.P2 => p.p2Men
  let kings := match side with | Side.P1 => p.p1Kings | Side.P2 => p.p2Kings
  (bitsList men ++ bitsList kings).foldl
    (fun sc s =>
      let rc := toRC s
      if 2 ≤ rc.1 ∧ rc.1 ≤ 5 ∧ 2 ≤ rc.2 ∧ rc.2 ≤ 5 then sc + 1 else sc) 0

def backRankGuards (p : Position) (side : Side) : Int :=
  let men := match side with | Side.P1 => p.p1Men | Side.P2 => p.p2Men
  (bitsList men).foldl
    (fun g i =>
      let r := (toRC i).1
      if (side = Side.P1 ∧ r = 7) ∨ (side = Side.P2 ∧ r = 0) then g + 1 else g) 0

/-- `mobility`: men forward-step exits and king single-step exits. -/
def mobility (p : Position) (side : Side) : Int × Int :=
  let occ := occupied p
  let myMenB := match side with | Side.P1 => p.p1Men | Side.P2 => p.p2Men
  let myKingsB := match side with | Side.P1 => p.p1Kings | Side.P2 => p.p2Kings
  let menMoves := (bitsList myMenB).foldl
    (fun n i => (STEPS i).foldl
      (fun n st =>
        if forwardDir side st.dir ∧ ¬occ.testBit st.toSq then n + 1 else n) n) 0
  let kingMoves := (bitsList myKingsB).foldl
    (fun n i => (STEPS i).foldl
      (fun n st => if ¬occ.testBit st.toSq then n + 1 else n) n) 0
  (menMoves, kingMoves)

def trappedKings (p : Position) (side : Side) : Int :=
  let occ := occupied p
  let myKingsB := match side with | Side.P1 => p.p1Kings | Side.P2 => p.p2Kings
  (bitsList myKingsB).foldl
    (fun t i =>
      let exits := (STEPS i).foldl
        (fun n st => if ¬occ.testBit st.toSq then n + 1 else n) (0 : Nat)
      if exits = 0 then t + 1 else t) 0

/-- The `(sum, cnt)` accumulation of `kingProximityGain`: total Chebyshev
distance of each own king to its nearest opposing piece, and the number of
kings counted. -/
def kingProxSums (myKingsB opAllB : Nat) : Nat × Nat :=
  (bitsList myKingsB).foldl
    (fun (ac : Nat × Nat) k =>
      let rk := toRC k
      let best := (bitsList opAllB).foldl
        (fun b e =>
          let re := toRC e
          let d := max ((rk.1 : Int) - (re.1 : Int)).natAbs
            ((rk.2 : Int) - (re.2 : Int)).natAbs
          if d < b then d else b) 99
      if best < 99 then (ac.1 + best, ac.2 + 1) else ac) (0, 0)

/-- `kingProximityGain`: `max 0 (6 - average Chebyshev distance)` of each own
king to its nearest opposing piece. -/
def kingProximityGain (p : Position) (side : Side) : ℚ :=
  let myKingsB := match side with | Side.P1 => p.p1Kings | Side.P2 => p.p2Kings
  let opAllB := match side with
    | Side.P1 => p.p2Men ||| p.p2Kings
    | Side.P2 => p.p1Men ||| p.p1Kings
  if opAllB = 0 then 0
  else
    let sc := kingProxSums myKingsB opAllB
    if sc.2 = 0 then 0
    else max 0 (6 - (sc.1 : ℚ) / (sc.2 : ℚ))

/-- `captureInfo`: maximum capture-chain length for `side` as if to move, and
the number of distinct threatened squares. -/
def captureInfo (p : Position) (side : Side) : Nat × Nat :=
  let view := if p.side = side then p else { p with side := side }
  let moves := generateMoves view
  match moves with
  | [] => (0, 0)
  | m0 :: _ =>
    if m0.captured.length = 0 then (0, 0)
    else
      let maxChain := moves.foldl
        (fun mc m => if mc < m.captured.length then m.captured.length else mc) 0
      let mask := moves.foldl
        (fun mk m => m.captured.foldl (fun mk2 sq => mk2 ||| b1 sq) mk) 0
      (maxChain, bitCount mask)

/-! The local constants of `evaluate` (`eg`, `leadSimple`, `leading`,
`W_KING`, `W_PROM`, `SIMP`, the two conditional capture contributions, and
the accumulated `score`) are hoisted into named definitions of `p`; each is
a verbatim transcription of the corresponding local of the source. -/

/-- `eg = 1 - gp`, the endgame blend weight. -/
def egOf (p : Position) : ℚ :=
  let gpTotal := bitCount (p.p1Men ||| p.p1Kings ||| p.p2Men ||| p.p2Kings)
  1 - max 0 (min 1 ((gpTotal : ℚ) / (START_TOTAL : ℚ)))

/-- `leadSimple` (kings count double). -/
def leadSimpleOf (p : Position) : Int :=
  ((bitCount (sideMen p) : Int) - bitCount (oppMen p)) +
    2 * ((bitCount (sideKings p) : Int) - bitCount (oppKings p))

/-- `leading = leadSimple > 0`. -/
def leadingOf (p : Position) : Bool := 0 < leadSimpleOf p

/-- `opAll`, the opponent's piece count. -/
def opAllOf (p : Position) : Nat := bitCount (oppMen p) + bitCount (oppKings p)

/-- The dynamic king weight `W_KING`. -/
def wKingOf (p : Position) : Int :=
  let w := if (1 : ℚ) / 2 ≤ egOf p ∧ leadingOf p then WB_king - 60 else WB_king
  if (4 : ℚ) / 5 ≤ egOf p ∧ leadingOf p ∧ opAllOf p ≤ 2 then w - 90 else w

/-- The dynamic promotion weight `W_PROM`. -/
def wPromOf (p : Position) : Int := WB_promoteProgress + jsRound (6 * egOf p)

/-- The dynamic simplification weight `SIMP`. -/
def simpWOf (p : Position) : Int :=
  WB_simplification + (if leadingOf p then jsRound (8 * egOf p) else 0) +
    (if leadingOf p ∧ opAllOf p ≤ 2 then 10 else 0)

/-- The capture-swing contribution (0 when neither side has a chain). -/
def captureSwingTermOf (p : Position) : Int :=
  let myCap := captureInfo p p.side
  let opCap := captureInfo p p.side.other
  if myCap.1 ≠ 0 ∨ opCap.1 ≠ 0 then
    (WB_captureSwing + (if (7 : ℚ) / 10 ≤ egOf p then 20 else 0)) *
      ((myCap.1 : Int) - (opCap.1 : Int))
  else 0

/-- The capture-targets contribution (0 when neither side threatens). -/
def captureTargetsTermOf (p : Position) : Int :=
  let myCap := captureInfo p p.side
  let opCap := captureInfo p p.side.other
  if myCap.2 ≠ 0 ∨ opCap.2 ≠ 0 then
    (WB_captureTargets + jsRound (4 * egOf p)) * ((myCap.2 : Int) - (opCap.2 : Int))
  else 0

/-- The accumulated `score` of `evaluate`, as an exact rational (the IEEE
rounding of the source's float accumulation is idealised away; only the
promotion term and the king-proximity term are non-integral). -/
def scoreOf (p : Position) : ℚ :=
  (WB_man * ((bitCount (sideMen p) : Int) - bitCount (oppMen p)) : Int) +
  (wKingOf p * ((bitCount (sideKings p) : Int) - bitCount (oppKings p)) : Int) +
  (WB_mobilityMen * ((mobility p p.side).1 -
    (mobility { p with side := p.side.other } p.side.other).1) : Int) +
  (WB_mobilityKing * ((mobility p p.side).2 -
    (mobility { p with side := p.side.other } p.side.other).2) : Int) +
  (WB_center * (centerScore p p.side - centerScore p p.side.other) : Int) +
  ((wPromOf p : ℚ) * ((promotionDistanceSum p p.side.other : ℚ) -
    (promotionDistanceSum p p.side : ℚ))) / 10 +
  (WB_backRankGuard * (backRankGuards p p.side - backRankGuards p p.side.other) : Int) +
  (WB_kingProximity : ℚ) *
    (kingProximityGain p p.side - kingProximityGain p p.side.other) +
  (WB_trappedKing * (trappedKings p p.side - trappedKings p p.side.other) : Int) +
  (captureSwingTermOf p : Int) +
  (captureTargetsTermOf p : Int) +
  (simpWOf p * ((START_TOTAL : Int) -
    ((bitCount (sideMen p) + bitCount (sideKings p) + opAllOf p : Nat) : Int)) : Int) +
  (if leadingOf p ∧ opAllOf p = 1 then (140 : Int) else 0) +
  (if leadingOf p ∧ opAllOf p ≤ 2 then (70 : Int) else 0)

/-- `evaluate`: the score truncated to a 32-bit integer (`score | 0`). -/
def evaluate (p : Position) : Int := ratToInt32 (scoreOf p)

/-! ## Search (`src/core/search/alphabeta.ts`)

Two variants exist in the repository.  Variant A is the newer one
(`MAX_PLY = 96`, per-line extension budget, root finisher scan, and no
inactivity tests); variant B is the older one (`MAX_PLY = 64`, inactivity
test at the root, at every interior node, and in quiescence).

The wall-clock poll `Date.now() > deadline` is modelled by a boolean
`timeUp` that is constant over one call tree; the claims under study all
constrain it to `false` ("deadline not passed").  The module-global killer /
history arrays and the node counter are threaded through an explicit `Acc`
state.  `ply` stays an explicit argument as in the source; an additional
fuel argument (kept equal to `MAX_PLY - ply` by the wrappers below) makes
the recursion structural, and its zero case is exactly the source's
`ply >= MAX_PLY` static-eval return. -/

def INF : Int := 1000000000

def MAXPLY_A : Nat := 96
def MAXPLY_B : Nat := 64

def keyMove (m : Move) : Nat := (m.fromSq <<< 5) ||| m.toSq

/-- Mutable search state: the TT and the killer/history tables
(`Int32Array`s in the source, hence the `toInt32` on history writes), plus
the node counter. -/
structure Acc where
  tt : List TTEntry
  k0 : Nat → Int
  k1 : Nat → Int
  hist : Nat → Int
  nodes : Nat

def Acc.fresh (tt : List TTEntry) : Acc :=
  ⟨tt, fun _ => -1, fun _ => -1, fun _ => 0, 0⟩

def updFn (f : Nat → Int) (i : Nat) (v : Int) : Nat → Int :=
  fun j => if j = i then v else f j

/-- `updateHeuristics`: shift the killer slots and bump the history score. -/
def updateHeuristics (m : Move) (depth : Int) (ply : Nat) (acc : Acc) : Acc :=
  let mk := keyMove m
  let acc :=
    if acc.k0 ply ≠ (mk : Int) then
      { acc with k1 := updFn acc.k1 ply (acc.k0 ply), k0 := updFn acc.k0 ply (mk : Int) }
    else acc
  { acc with hist := updFn acc.hist mk (toInt32 (acc.hist mk + depth * depth)) }

/-- The move-ordering score of `orderMoves` (identical in both variants). -/
def moveScore (ttKey : Int) (acc : Acc) (ply : Nat) (m : Move) : Int :=
  let mk := keyMove m
  let s : Int := 0
  let s := if 0 ≤ ttKey ∧ ttKey = (mk : Int) then s + 1000000 else s
  let s := if m.captured.length ≠ 0 then s + 10000 * (m.captured.length : Int) else s
  let s := if acc.k0 ply = (mk : Int) then s + 5000 else s
  let s := if acc.k1 ply = (mk : Int) then s + 4000 else s
  let s := s + acc.hist mk
  let s := if m.captured.length = 0 ∧ m.promote then s + 1500 else s
  s

/-- Stable insertion into a descending list: a new element goes after every
strictly better one and before equal ones, which is exactly the order a
stable sort with comparator `b.s - a.s` produces. -/
def insertDesc (f : α → Int) (a : α) : List α → List α
  | [] => [a]
  | b :: rest => if f a < f b then b :: insertDesc f a rest else a :: b :: rest

def sortDesc (f : α → Int) : List α → List α
  | [] => []
  | x :: xs => insertDesc f x (sortDesc f xs)

/-- `orderMoves` of the source: score each move and sort descending
(stably). -/
def orderMoves (moves : List Move) (ttKey : Int) (acc : Acc) (ply : Nat) : List Move :=
  sortDesc (moveScore ttKey acc ply) moves

/-- The TT-probe step shared by both interior searches: possibly narrowed
`(alpha, beta)` and an early score. -/
def ttProbe (hit : Option TTEntry) (depth alpha beta : Int) :
    Int × Int × Option Int :=
  match hit with
  | some h =>
    if depth ≤ h.depth then
      if h.bound = Bound.EXACT then (alpha, beta, some h.score)
      else
        let ab :=
          if h.bound = Bound.LOWER ∧ alpha < h.score then (h.score, beta)
          else if h.bound = Bound.UPPER ∧ h.score < beta then (alpha, h.score)
          else (alpha, beta)
        if ab.2 ≤ ab.1 then (ab.1, ab.2, some h.score) else (ab.1, ab.2, none)
    else (alpha, beta, none)
  | none => (alpha, beta, none)

/-- Variant A's `computeExtensionFlexible`: new child depth and remaining
budget. -/
def computeExtensionFlexible (depth : Int) (budget : Nat)
    (endgameSmall oppHasCapture parentHasSingle childHasSingle : Bool) : Int × Nat :=
  let d := depth - 1
  let s1 := if 0 < d ∧ 0 < budget ∧ parentHasSingle then (d + 1, budget - 1) else (d, budget)
  let s2 :=
    if 0 < s1.1 ∧ 0 < s1.2 ∧ (endgameSmall ∨ oppHasCapture ∨ childHasSingle) then
      (s1.1 + 1, s1.2 - 1)
    else s1
  let d2 := if depth < s2.1 then depth else s2.1
  let d3 := if d2 < 0 then 0 else d2
  (d3, s2.2)

/-- Variant B's `clampDepth`. -/
def clampDepth (parentDepth childDepth : Int) : Int :=
  if parentDepth ≤ 0 then 0
  else
    let maxChild := parentDepth - 1
    if maxChild < childDepth then maxChild
    else if childDepth < 0 then 0
    else childDepth

/-- Variant A's `quiesce`.  Returns the score and the updated node count. -/
def quiesceAF : Nat → Position → Int → Int → Bool → Nat → Int × Nat
  | 0, pos, _, _, _, nodes => (evaluate pos, nodes)
  | fuel + 1, pos, alpha, beta, timeUp, nodes =>
    if timeUp then (evaluate pos, nodes)
    else
      let stand := evaluate pos
      if beta ≤ stand then (stand, nodes)
      else
        let alpha := if alpha < stand then stand else alpha
        let caps := (generateMoves pos).filter fun m => 0 < m.captured.length
        let caps := sortDesc (fun m => (m.captured.length : Int)) caps
        let st := caps.foldl
          (fun (st : Int × Nat × Option Int) m =>
            match st.2.2 with
            | some _ => st
            | none =>
              let child := applyMove pos m
              let r := quiesceAF fuel child (-beta) (-st.1) timeUp st.2.1
              let sc := -r.1
              let nodes := r.2 + 1
              if beta ≤ sc then (st.1, nodes, some sc)
              else if st.1 < sc then (sc, nodes, none)
              else (st.1, nodes, none))
          (alpha, nodes, (none : Option Int))
        match st.2.2 with
        | some v => (v, st.2.1)
        | none => (st.1, st.2.1)

/-- The per-node loop state of the interior searches. -/
structure ABState where
  alpha : Int
  best : Int
  bestKey : Int
  acc : Acc
  stop : Bool

/-- Variant A's interior `alphabeta`. -/
def alphabetaAF : Nat → Position → Int → Int → Int → Bool → Acc → Nat → Nat → Int × Acc
  | 0, pos, _, _, _, _, acc, _, _ => (evaluate pos, acc)
  | fuel + 1, pos, depth, alpha, beta, timeUp, acc, ply, budget =>
    if timeUp then (evaluate pos, acc)
    else if depth ≤ 0 then
      let r := quiesceAF (fuel + 1) pos alpha beta timeUp acc.nodes
      (r.1, { acc with nodes := r.2 })
    else
      let key := hashPosition pos
      let hit := mapGet key acc.tt
      let pr := ttProbe hit depth alpha beta
      match pr.2.2 with
      | some v => (v, acc)
      | none =>
        let alpha := pr.1
        let beta := pr.2.1
        let moves := generateMoves pos
        if moves.isEmpty then (-999999 + (ply : Int), acc)
        else
          let ttKey : Int := match hit with | some h => h.move.getD (-1) | none => -1
          let ordered := orderMoves moves ttKey acc ply
          let a0 := alpha
          let b0 := beta
          let st0 : ABState := ⟨alpha, -INF, -1, acc, false⟩
          let st := ordered.enum.foldl
            (fun (st : ABState) im =>
              if st.stop ∨ timeUp then st
              else
                let i := im.1
                let m := im.2
                let child := applyMove pos m
                let childMoves := generateMoves child
                let total := bitCount (child.p1Men ||| child.p1Kings ||| child.p2Men ||| child.p2Kings)
                let oppHasCap := childMoves.any fun mm => 0 < mm.captured.length
                let childHasSingle := childMoves.length = 1
                let parentHasSingle := ordered.length = 1
                let endgameSmall := total ≤ 5
                let ext := computeExtensionFlexible depth budget endgameSmall oppHasCap
                  parentHasSingle childHasSingle
                let d := ext.1
                let nextBudget := ext.2
                let isQuiet := m.captured.length = 0
                let disableLMR := ordered.length ≤ 2 ∨ childHasSingle
                let lateQuiet := 3 ≤ i ∧ 2 ≤ d ∧ isQuiet ∧ ¬disableLMR
                let d := if lateQuiet then (if d - 1 < 0 then 0 else d - 1) else d
                let scAcc : Int × Acc :=
                  if i = 0 then
                    let r := alphabetaAF fuel child d (-beta) (-st.alpha) timeUp st.acc
                      (ply + 1) nextBudget
                    (-r.1, r.2)
                  else
                    let r := alphabetaAF fuel child d (-(st.alpha + 1)) (-st.alpha) timeUp
                      st.acc (ply + 1) nextBudget
                    let sc := -r.1
                    if st.alpha < sc ∧ d < depth - 1 then
                      let r2 := alphabetaAF fuel child (depth - 1) (-beta) (-st.alpha) timeUp
                        r.2 (ply + 1) nextBudget
                      (-r2.1, r2.2)
                    else if st.alpha < sc ∧ sc < beta then
                      let r2 := alphabetaAF fuel child (depth - 1) (-beta) (-st.alpha) timeUp
                        r.2 (ply + 1) nextBudget
                      (-r2.1, r2.2)
                    else (sc, r.2)
                let sc := scAcc.1
                let acc3 : Acc := { scAcc.2 with nodes := scAcc.2.nodes + 1 }
                let best2 := if st.best < sc then sc else st.best
                let bestKey2 := if st.best < sc then (keyMove m : Int) else st.bestKey
                let alpha2 := if st.alpha < sc then sc else st.alpha
                if beta ≤ alpha2 then
                  let acc4 := if isQuiet then updateHeuristics m depth ply acc3 else acc3
                  ⟨alpha2, best2, bestKey2, acc4, true⟩
                else ⟨alpha2, best2, bestKey2, acc3, false⟩)
            st0
          let entry : TTEntry :=
            { key := key, depth := depth, score := st.best, move := some st.bestKey,
              bound :=
                if st.best ≤ a0 then Bound.UPPER
                else if b0 ≤ st.best then Bound.LOWER
                else Bound.EXACT }
          ((st.best, { st.acc with tt := ttPut st.acc.tt entry }) : Int × Acc)

/-- Variant A's `quiesce` at its source signature (`ply` instead of fuel). -/
def quiesceA (pos : Position) (alpha beta : Int) (timeUp : Bool) (nodes : Nat)
    (ply : Nat) : Int × Nat :=
  quiesceAF (MAXPLY_A - ply) pos alpha beta timeUp nodes

/-- Variant A's `alphabeta` at its source signature. -/
def alphabetaA (pos : Position) (depth alpha beta : Int) (timeUp : Bool) (acc : Acc)
    (ply : Nat) (budget : Nat) : Int × Acc :=
  alphabetaAF (MAXPLY_A - ply) pos depth alpha beta timeUp acc ply budget

/-- Variant B's `quiesce`: identical to variant A's except for the leading
inactivity test (returning the draw score 0) and the `MAX_PLY - 1` cap.  The
zero-fuel branch keeps the inactivity test first, as the source does. -/
def quiesceBF : Nat → Position → Int → Int → Bool → Nat → Int × Nat
  | 0, pos, _, _, _, nodes =>
    if isDrawByInactivity pos then (0, nodes) else (evaluate pos, nodes)
  | fuel + 1, pos, alpha, beta, timeUp, nodes =>
    if isDrawByInactivity pos then (0, nodes)
    else if timeUp then (evaluate pos, nodes)
    else
      let stand := evaluate pos
      if beta ≤ stand then (stand, nodes)
      else
        let alpha := if alpha < stand then stand else alpha
        let caps := (generateMoves pos).filter fun m => 0 < m.captured.length
        let caps := sortDesc (fun m => (m.captured.length : Int)) caps
        let st := caps.foldl
          (fun (st : Int × Nat × Option Int) m =>
            match st.2.2 with
            | some _ => st
            | none =>
              let child := applyMove pos m
              let r := quiesceBF fuel child (-beta) (-st.1) timeUp st.2.1
              let sc := -r.1
              let nodes := r.2 + 1
              if beta ≤ sc then (st.1, nodes, some sc)
              else if st.1 < sc then (sc, nodes, none)
              else (st.1, nodes, none))
          (alpha, nodes, (none : Option Int))
        match st.2.2 with
        | some v => (v, st.2.1)
        | none => (st.1, st.2.1)

/-- Variant B's interior `alphabeta` (inactivity test first, endgame/threat
extensions without a budget, `clampDepth`). -/
def alphabetaBF : Nat → Position → Int → Int → Int → Bool → Acc → Nat → Int × Acc
  | 0, pos, _, _, _, _, acc, _ =>
    if isDrawByInactivity pos then (0, acc) else (evaluate pos, acc)
  | fuel + 1, pos, depth, alpha, beta, timeUp, acc, ply =>
    if isDrawByInactivity pos then (0, acc)
    else if timeUp then (evaluate pos, acc)
    else if depth ≤ 0 then
      let r := quiesceBF (fuel + 1) pos alpha beta timeUp acc.nodes
      (r.1, { acc with nodes := r.2 })
    else
      let key := hashPosition pos
      let hit := mapGet key acc.tt
      let pr := ttProbe hit depth alpha beta
      match pr.2.2 with
      | some v => (v, acc)
      | none =>
        let alpha := pr.1
        let beta := pr.2.1
        let moves := generateMoves pos
        if moves.isEmpty then (-999999 + (ply : Int), acc)
        else
          let ttKey : Int := match hit with | some h => h.move.getD (-1) | none => -1
          let ordered := orderMoves moves ttKey acc ply
          let a0 := alpha
          let b0 := beta
          let st0 : ABState := ⟨alpha, -INF, -1, acc, false⟩
          let st := ordered.enum.foldl
            (fun (st : ABState) im =>
              if st.stop ∨ timeUp then st
              else
                let i := im.1
                let m := im.2
                let child := applyMove pos m
                let d0 : Int := depth - 1
                let total := bitCount (child.p1Men ||| child.p1Kings ||| child.p2Men ||| child.p2Kings)
                let d1 := if total ≤ 5 then d0 + 1 else d0
                let d2 :=
                  if 0 ≤ d1 then
                    if (generateMoves child).any (fun mm => 0 < mm.captured.length) then d1 + 1
                    else d1
                  else d1
                let lateQuiet := 3 ≤ i ∧ 2 ≤ d2 ∧ m.captured.length = 0
                let depthToUse := if lateQuiet then d2 - 1 else d2
                let depthToUse := clampDepth depth depthToUse
                let scAcc : Int × Acc :=
                  if i = 0 then
                    let r := alphabetaBF fuel child depthToUse (-beta) (-st.alpha) timeUp
                      st.acc (ply + 1)
                    (-r.1, r.2)
                  else
                    let r := alphabetaBF fuel child depthToUse (-(st.alpha + 1)) (-st.alpha)
                      timeUp st.acc (ply + 1)
                    let sc := -r.1
                    if st.alpha < sc ∧ depthToUse < depth - 1 then
                      let r2 := alphabetaBF fuel child (depth - 1) (-beta) (-st.alpha) timeUp
                        r.2 (ply + 1)
                      (-r2.1, r2.2)
                    else if st.alpha < sc ∧ sc < beta then
                      let r2 := alphabetaBF fuel child (depth - 1) (-beta) (-st.alpha) timeUp
                        r.2 (ply + 1)
                      (-r2.1, r2.2)
                    else (sc, r.2)
                let sc := scAcc.1
                let acc3 : Acc := { scAcc.2 with nodes := scAcc.2.nodes + 1 }
                let best2 := if st.best < sc then sc else st.best
                let bestKey2 := if st.best < sc then (keyMove m : Int) else st.bestKey
                let alpha2 := if st.alpha < sc then sc else st.alpha
                if beta ≤ alpha2 then
                  let acc4 :=
                    if m.captured.length = 0 then updateHeuristics m depth ply acc3 else acc3
                  ⟨alpha2, best2, bestKey2, acc4, true⟩
                else ⟨alpha2, best2, bestKey2, acc3, false⟩)
            st0
          let entry : TTEntry :=
            { key := key, depth := depth, score := st.best, move := some st.bestKey,
              bound :=
                if st.best ≤ a0 then Bound.UPPER
                else if b0 ≤ st.best then Bound.LOWER
                else Bound.EXACT }
          ((st.best, { st.acc with tt := ttPut st.acc.tt entry }) : Int × Acc)

/-- Variant B's `quiesce` at its source signature. -/
def quiesceB (pos : Position) (alpha beta : Int) (timeUp : Bool) (nodes : Nat)
    (ply : Nat) : Int × Nat :=
  quiesceBF (MAXPLY_B - 1 - ply) pos alpha beta timeUp nodes

/-- Variant B's `alphabeta` at its source signature. -/
def alphabetaB (pos : Position) (depth alpha beta : Int) (timeUp : Bool) (acc : Acc)
    (ply : Nat) : Int × Acc :=
  alphabetaBF (MAXPLY_B - 1 - ply) pos depth alpha beta timeUp acc ply

/-- Variant B's `searchRoot`: the inactivity test first, then the same loop
as the interior search but tracking the best `Move` itself. -/
def searchRootB (pos : Position) (depth alpha beta : Int) (timeUp : Bool) (acc : Acc)
    (ply : Nat) : (Option Move × Int) × Acc :=
  if isDrawByInactivity pos then ((none, 0), acc)
  else
    let moves := generateMoves pos
    if moves.isEmpty then ((none, -999999 + (ply : Int)), acc)
    else
      let key := hashPosition pos
      let tthit := mapGet key acc.tt
      let ttKey : Int := match tthit with | some h => h.move.getD (-1) | none => -1
      let ordered := orderMoves moves ttKey acc ply
      let a0 := alpha
      let b0 := beta
      let st0 : Int × Int × Option Move × Acc × Bool := (alpha, -INF, none, acc, false)
      let st := ordered.enum.foldl
        (fun (st : Int × Int × Option Move × Acc × Bool) im =>
          if st.2.2.2.2 ∨ timeUp then st
          else
            let i := im.1
            let m := im.2
            let stAlpha := st.1
            let stBest := st.2.1
            let stMove := st.2.2.1
            let stAcc := st.2.2.2.1
            let child := applyMove pos m
            let d0 : Int := depth - 1
            let total := bitCount (child.p1Men ||| child.p1Kings ||| child.p2Men ||| child.p2Kings)
            let d1 := if total ≤ 5 then d0 + 1 else d0
            let d2 :=
              if 0 ≤ d1 then
                if (generateMoves child).any (fun mm => 0 < mm.captured.length) then d1 + 1
                else d1
              else d1
            let lateQuiet := 3 ≤ i ∧ 2 ≤ d2 ∧ m.captured.length = 0
            let depthToUse := if lateQuiet then d2 - 1 else d2
            let depthToUse := clampDepth depth depthToUse
            let scAcc : Int × Acc :=
              if i = 0 then
                let r := alphabetaB child depthToUse (-beta) (-stAlpha) timeUp stAcc (ply + 1)
                (-r.1, r.2)
              else
                let r := alphabetaB child depthToUse (-(stAlpha + 1)) (-stAlpha) timeUp stAcc
                  (ply + 1)
                let sc := -r.1
                if stAlpha < sc ∧ sc < beta then
                  let r2 := alphabetaB child depthToUse (-beta) (-stAlpha) timeUp r.2 (ply + 1)
                  (-r2.1, r2.2)
                else (sc, r.2)
            let sc := scAcc.1
            let acc3 : Acc := { scAcc.2 with nodes := scAcc.2.nodes + 1 }
            let best2 := if stBest < sc then sc else stBest
            let move2 := if stBest < sc then some m else stMove
            let alpha2 := if stAlpha < sc then sc else stAlpha
            if beta ≤ alpha2 then
              let acc4 := if m.captured.length = 0 then updateHeuristics m depth ply acc3 else acc3
              (alpha2, best2, move2, acc4, true)
            else (alpha2, best2, move2, acc3, false))
        st0
      let stBest := st.2.1
      let stMove := st.2.2.1
      let stAcc := st.2.2.2.1
      match stMove with
      | some bm =>
        let entry : TTEntry :=
          { key := key, depth := depth, score := stBest, move := some ((keyMove bm : Nat) : Int),
            bound :=
              if stBest ≤ a0 then Bound.UPPER
              else if b0 ≤ stBest then Bound.LOWER
              else Bound.EXACT }
        ((some bm, stBest), { stAcc with tt := ttPut stAcc.tt entry })
      | none => ((none, stBest), stAcc)

/-! ## C4: well-formedness invariant of reachable positions -/

def tb (x j : Nat) : Prop := x.testBit j = true

def PosInv (p : Position) : Prop :=
  p.p1Men < 2 ^ 32 ∧ p.p1Kings < 2 ^ 32 ∧ p.p2Men < 2 ^ 32 ∧ p.p2Kings < 2 ^ 32 ∧
  p.p1Men &&& p.p1Kings = 0 ∧ p.p1Men &&& p.p2Men = 0 ∧ p.p1Men &&& p.p2Kings = 0 ∧
  p.p1Kings &&& p.p2Men = 0 ∧ p.p1Kings &&& p.p2Kings = 0 ∧
  p.p2Men &&& p.p2Kings = 0

def MoveOK (p : Position) (m : Move) : Prop :=
  m.fromSq < 32 ∧ m.toSq < 32 ∧ m.captured.Nodup ∧
  (∀ c ∈ m.captured, c < 32 ∧ tb (oppMen p ||| oppKings p) c) ∧
  tb (sideMen p ||| sideKings p) m.fromSq ∧
  (tb (occupied p) m.toSq → m.toSq = m.fromSq ∨ m.toSq ∈ m.captured)

def MenInvariant (p : Position) (from0 cur myMenB myKingsB opMenB opKingsB : Nat)
    (path caps : List Nat) : Prop :=
  (∀ j, tb myMenB j ↔ (tb (sideMen p) j ∧ j ≠ from0) ∨ j = cur) ∧
  myKingsB = sideKings p ∧
  (∀ j, tb opMenB j ↔ tb (oppMen p) j ∧ j ∉ caps) ∧
  (∀ j, tb opKingsB j ↔ tb (oppKings p) j ∧ j ∉ caps) ∧
  cur < 32 ∧
  ¬ tb (sideKings p) cur ∧
  (tb (occupied p) cur → cur = from0 ∨ cur ∈ caps) ∧
  caps.Nodup ∧
  (∀ c ∈ caps, c < 32 ∧ tb (oppMen p ||| oppKings p) c) ∧
  path.getLast?.getD cur = cur ∧
  myMenB < 2 ^ 32 ∧ opMenB < 2 ^ 32 ∧ opKingsB < 2 ^ 32

def KingInvariant (p : Position) (from0 cur myMenB myKingsB opMenB opKingsB : Nat)
    (path caps : List Nat) : Prop :=
  myMenB = sideMen p ∧
  (∀ j, tb myKingsB j ↔ (tb (sideKings p) j ∧ j ≠ from0) ∨ j = cur) ∧
  (∀ j, tb opMenB j ↔ tb (oppMen p) j ∧ j ∉ caps) ∧
  (∀ j, tb opKingsB j ↔ tb (oppKings p) j ∧ j ∉ caps) ∧
  cur < 32 ∧
  ¬ tb (sideMen p) cur ∧
  (tb (occupied p) cur → cur = from0 ∨ cur ∈ caps) ∧
  caps.Nodup ∧
  (∀ c ∈ caps, c < 32 ∧ tb (oppMen p ||| oppKings p) c) ∧
  path.getLast?.getD cur = cur ∧
  myKingsB < 2 ^ 32 ∧ opMenB < 2 ^ 32 ∧ opKingsB < 2 ^ 32

inductive Reachable : Position → Prop where
  | init : Reachable initialPosition
  | step {p : Position} {m : Move} : Reachable p → m ∈ generateMoves p →
      Reachable (applyMove p m)

/-! ## Theorems -/

/-- Claim C5: after any generated move, the halfmove clock is reset to 0 by a
capturing move and incremented by a quiet move (`applyMove`, final
assignment). -/
theorem C5_halfmove_clock_update (p : Position) (m : Move)
    (hm : m ∈ generateMoves p) :
    (m.captured ≠ [] → (applyMove p m).halfmoveClock = 0) ∧
      (m.captured = [] → (applyMove p m).halfmoveClock = p.halfmoveClock + 1) := by
  clear hm
  constructor <;> intro hc <;> cases hps : p.side <;>
    cases hcap : m.captured <;> simp_all [applyMove]

/-- Witness for C5 at a concrete quiet move of the initial position. -/
theorem C5_halfmove_clock_update_witness :
    (applyMove initialPosition ⟨24, 20, [], false⟩).halfmoveClock =
      initialPosition.halfmoveClock + 1 :=
  (C5_halfmove_clock_update initialPosition ⟨24, 20, [], false⟩ (by decide)).2 rfl

/-- Claim C10: `hashPosition` reads only the four piece bitboards and the
side to move, so positions differing only in `halfmoveClock` hash
identically. -/
theorem C10_hash_ignores_clock (p q : Position)
    (h1 : p.p1Men = q.p1Men) (h2 : p.p1Kings = q.p1Kings)
    (h3 : p.p2Men = q.p2Men) (h4 : p.p2Kings = q.p2Kings)
    (h5 : p.side = q.side) : hashPosition p = hashPosition q := by
  cases p
  cases q
  simp only at h1 h2 h3 h4 h5
  subst h1 h2 h3 h4 h5
  rfl

/-- Witness for C10: two concrete positions that differ only in the
halfmove clock share their hash. -/
theorem C10_hash_ignores_clock_witness :
    hashPosition { initialPosition with halfmoveClock := 0 } =
        hashPosition { initialPosition with halfmoveClock := 5 } ∧
      ({ initialPosition with halfmoveClock := 0 } : Position).halfmoveClock ≠
        ({ initialPosition with halfmoveClock := 5 } : Position).halfmoveClock :=
  ⟨C10_hash_ignores_clock _ _ rfl rfl rfl rfl rfl, by decide⟩

/-! Association-list lemmas for the transposition table. -/

theorem mapGet_mapSet_self (e : TTEntry) (t : List TTEntry) :
    mapGet e.key (mapSet e t) = some e := by
  induction t with
  | nil => simp [mapGet, mapSet]
  | cons x xs ih =>
    by_cases hx : x.key = e.key
    · simp [mapGet, mapSet, hx, List.find?]
    · simp only [mapSet, if_neg hx]
      simpa [mapGet, List.find?, hx] using ih

theorem mapGet_mapSet_ne (e : TTEntry) (t : List TTEntry) (k : Nat)
    (hk : k ≠ e.key) : mapGet k (mapSet e t) = mapGet k t := by
  have hek : e.key ≠ k := Ne.symm hk
  induction t with
  | nil => simp [mapGet, mapSet, List.find?, hek]
  | cons x xs ih =>
    by_cases hx : x.key = e.key
    · have hxk : x.key ≠ k := by rw [hx]; exact hek
      simp only [mapSet, if_pos hx]
      rw [mapGet, mapGet]
      rw [List.find?_cons_of_neg _ (by simp [hek]), List.find?_cons_of_neg _ (by simp [hxk])]
    · simp only [mapSet, if_neg hx]
      by_cases hxk : x.key = k
      · rw [mapGet, mapGet]
        rw [List.find?_cons_of_pos _ (by simp [hxk]), List.find?_cons_of_pos _ (by simp [hxk])]
      · rw [mapGet, mapGet]
        rw [List.find?_cons_of_neg _ (by simp [hxk]), List.find?_cons_of_neg _ (by simp [hxk])]
        exact ih

theorem mapGet_some (t : List TTEntry) (k : Nat) (x : TTEntry)
    (h : mapGet k t = some x) : x.key = k ∧ x ∈ t := by
  rw [mapGet] at h
  refine ⟨?_, List.mem_of_find?_eq_some h⟩
  have := List.find?_some h
  simpa using this

theorem mapGet_isSome (t : List TTEntry) (k : Nat)
    (h : ∃ x ∈ t, x.key = k) : (mapGet k t).isSome := by
  rw [mapGet, List.find?_isSome]
  obtain ⟨x, hx, hk⟩ := h
  exact ⟨x, hx, by simpa using hk⟩

/-- Claim C6: `TT.put` stores the entry under its key iff the slot is empty
or the new depth is at least the stored depth, leaving all other keys
unchanged, and otherwise leaves the table unchanged; `TT.get` returns an
entry iff one is stored under exactly that key. -/
theorem C6_tt_depth_preferred (t : List TTEntry) (e : TTEntry) (k : Nat) :
    (mapGet e.key t = none →
      ttGet (ttPut t e) e.key = some e ∧
        ∀ k2, k2 ≠ e.key → ttGet (ttPut t e) k2 = ttGet t k2) ∧
    (∀ prev, mapGet e.key t = some prev →
      (prev.depth ≤ e.depth →
        ttGet (ttPut t e) e.key = some e ∧
          ∀ k2, k2 ≠ e.key → ttGet (ttPut t e) k2 = ttGet t k2) ∧
      (e.depth < prev.depth → ttPut t e = t)) ∧
    (∀ x, ttGet t k = some x → x.key = k ∧ x ∈ t) ∧
    ((∃ x ∈ t, x.key = k) → (ttGet t k).isSome) := by
  refine ⟨?_, ?_, ?_, ?_⟩
  · intro hnone
    have h2 : ttPut t e = mapSet e t := by
      rw [ttPut, hnone]
    rw [ttGet, h2]
    exact ⟨mapGet_mapSet_self e t,
      fun k2 hk2 => by rw [ttGet]; exact mapGet_mapSet_ne e t k2 hk2⟩
  · intro prev hprev
    constructor
    · intro hdep
      have h2 : ttPut t e = mapSet e t := by
        rw [ttPut, hprev]
        show (if prev.depth ≤ e.depth then mapSet e t else t) = mapSet e t
        exact if_pos hdep
      rw [ttGet, h2]
      exact ⟨mapGet_mapSet_self e t,
        fun k2 hk2 => by rw [ttGet]; exact mapGet_mapSet_ne e t k2 hk2⟩
    · intro hdep
      rw [ttPut, hprev]
      show (if prev.depth ≤ e.depth then mapSet e t else t) = t
      exact if_neg (by omega)
  · exact fun x => mapGet_some t k x
  · exact mapGet_isSome t k

/-- Witness for C6 at a concrete table: a deeper entry replaces, a shallower
probe leaves the table unchanged, and `get` finds exactly the stored key. -/
theorem C6_tt_depth_preferred_witness :
    ttGet (ttPut [⟨7, 3, 10, none, Bound.EXACT⟩] ⟨7, 5, 20, none, Bound.LOWER⟩) 7 =
        some ⟨7, 5, 20, none, Bound.LOWER⟩ ∧
      ttPut [⟨7, 5, 20, none, Bound.LOWER⟩] ⟨7, 3, 10, none, Bound.EXACT⟩ =
        [⟨7, 5, 20, none, Bound.LOWER⟩] := by
  constructor
  · exact (((C6_tt_depth_preferred [⟨7, 3, 10, none, Bound.EXACT⟩]
      ⟨7, 5, 20, none, Bound.LOWER⟩ 7).2.1 ⟨7, 3, 10, none, Bound.EXACT⟩ (by decide)).1
      (by decide)).1
  · exact ((C6_tt_depth_preferred [⟨7, 5, 20, none, Bound.LOWER⟩]
      ⟨7, 3, 10, none, Bound.EXACT⟩ 7).2.1 ⟨7, 5, 20, none, Bound.LOWER⟩ (by decide)).2
      (by decide)

/-! ## C9: where the inactivity-draw test is applied -/

theorem alphabetaBF_draw (fuel : Nat) (pos : Position) (depth alpha beta : Int)
    (timeUp : Bool) (acc : Acc) (ply : Nat) (hd : isDrawByInactivity pos = true) :
    (alphabetaBF fuel pos depth alpha beta timeUp acc ply).1 = 0 := by
  cases fuel <;> rw [alphabetaBF] <;> rw [hd] <;> rfl

theorem quiesceBF_draw (fuel : Nat) (pos : Position) (alpha beta : Int)
    (timeUp : Bool) (nodes : Nat) (hd : isDrawByInactivity pos = true) :
    (quiesceBF fuel pos alpha beta timeUp nodes).1 = 0 := by
  cases fuel <;> rw [quiesceBF] <;> rw [hd] <;> rfl

/-- Claim C9 (amended): in the search variant that tests the halfmove clock
(`src/core/search/alphabeta.ts`, the older variant), the inactivity-draw
test is applied not at the root only but at every level: the root search
returns no move and score 0, and the interior search and quiescence likewise
return the draw score 0 before examining any move, for every position
satisfying `isDrawByInactivity`.  (The other search variant applies the test
nowhere.) -/
theorem C9_inactivity_draw_everywhere (pos : Position) (depth alpha beta : Int)
    (timeUp : Bool) (acc : Acc) (ply nodes : Nat)
    (hd : isDrawByInactivity pos = true) :
    (searchRootB pos depth alpha beta timeUp acc ply).1 = (none, 0) ∧
      (alphabetaB pos depth alpha beta timeUp acc ply).1 = 0 ∧
      (quiesceB pos alpha beta timeUp nodes ply).1 = 0 := by
  refine ⟨?_, ?_, ?_⟩
  · rw [searchRootB, hd]
    rfl
  · exact alphabetaBF_draw _ pos depth alpha beta timeUp acc ply hd
  · exact quiesceBF_draw _ pos alpha beta timeUp nodes hd

/-- Witness for C9 at a concrete inactivity-draw position (two kings against
one, clock at 20). -/
theorem C9_inactivity_draw_everywhere_witness :
    (searchRootB ⟨Side.P1, 0, b1 28 ||| b1 30, 0, b1 3, 20⟩ 3 (-INF) INF false
        (Acc.fresh []) 0).1 = (none, 0) ∧
      (alphabetaB ⟨Side.P1, 0, b1 28 ||| b1 30, 0, b1 3, 20⟩ 3 (-INF) INF false
        (Acc.fresh []) 0).1 = 0 ∧
      (quiesceB ⟨Side.P1, 0, b1 28 ||| b1 30, 0, b1 3, 20⟩ (-INF) INF false 0 0).1 = 0 :=
  C9_inactivity_draw_everywhere _ 3 (-INF) INF false (Acc.fresh []) 0 0 (by decide)

theorem kpg_c9_P1 :
    kingProximityGain ⟨Side.P1, 0, b1 28 ||| b1 30, 0, b1 3, 20⟩ Side.P1 = 0 := by
  have h2 : kingProxSums (b1 28 ||| b1 30) (0 ||| b1 3) = (14, 2) := by decide
  simp only [kingProximityGain, h2]
  norm_num [max_def]

theorem kpg_c9_P2 :
    kingProximityGain ⟨Side.P1, 0, b1 28 ||| b1 30, 0, b1 3, 20⟩ Side.P2 = 0 := by
  have h2 : kingProxSums (b1 3) (0 ||| (b1 28 ||| b1 30)) = (7, 1) := by decide
  simp only [kingProximityGain, h2]
  norm_num [max_def]

set_option maxHeartbeats 1000000 in
theorem evaluate_at_c9pos :
    evaluate ⟨Side.P1, 0, b1 28 ||| b1 30, 0, b1 3, 20⟩ = 575 := by
  have hb0 : bitCount 0 = 0 := by decide
  have hb2 : bitCount (b1 28 ||| b1 30) = 2 := by decide
  have hb1 : bitCount (b1 3) = 1 := by decide
  have hbt : bitCount (0 ||| (b1 28 ||| b1 30) ||| 0 ||| b1 3) = 3 := by decide
  have hm1 : mobility ⟨Side.P1, 0, b1 28 ||| b1 30, 0, b1 3, 20⟩ Side.P1 = (0, 3) := by decide
  have hm2 : mobility ⟨Side.P2, 0, b1 28 ||| b1 30, 0, b1 3, 20⟩ Side.P2 = (0, 1) := by decide
  have hc1 : centerScore ⟨Side.P1, 0, b1 28 ||| b1 30, 0, b1 3, 20⟩ Side.P1 = 0 := by decide
  have hc2 : centerScore ⟨Side.P1, 0, b1 28 ||| b1 30, 0, b1 3, 20⟩ Side.P2 = 0 := by decide
  have hp1 : promotionDistanceSum ⟨Side.P1, 0, b1 28 ||| b1 30, 0, b1 3, 20⟩ Side.P1 = 0 := by
    decide
  have hp2 : promotionDistanceSum ⟨Side.P1, 0, b1 28 ||| b1 30, 0, b1 3, 20⟩ Side.P2 = 0 := by
    decide
  have hg1 : backRankGuards ⟨Side.P1, 0, b1 28 ||| b1 30, 0, b1 3, 20⟩ Side.P1 = 0 := by decide
  have hg2 : backRankGuards ⟨Side.P1, 0, b1 28 ||| b1 30, 0, b1 3, 20⟩ Side.P2 = 0 := by decide
  have ht1 : trappedKings ⟨Side.P1, 0, b1 28 ||| b1 30, 0, b1 3, 20⟩ Side.P1 = 0 := by decide
  have ht2 : trappedKings ⟨Side.P1, 0, b1 28 ||| b1 30, 0, b1 3, 20⟩ Side.P2 = 0 := by decide
  have hcap1 : captureInfo ⟨Side.P1, 0, b1 28 ||| b1 30, 0, b1 3, 20⟩ Side.P1 = (0, 0) := by
    decide
  have hcap2 : captureInfo ⟨Side.P1, 0, b1 28 ||| b1 30, 0, b1 3, 20⟩ Side.P2 = (0, 0) := by
    decide
  simp only [evaluate, scoreOf, egOf, leadSimpleOf, leadingOf, opAllOf, wKingOf, wPromOf,
    simpWOf, captureSwingTermOf, captureTargetsTermOf, sideMen, sideKings, oppMen, oppKings,
    Side.other, hb0, hb2, hb1, hbt, hm1, hm2, hc1, hc2, hp1, hp2, hg1, hg2, ht1, ht2,
    hcap1, hcap2, kpg_c9_P1, kpg_c9_P2]
  norm_num [jsRound, ratToInt32, toInt32, max_def, min_def, START_TOTAL, WB_man, WB_king,
    WB_mobilityMen, WB_mobilityKing, WB_center, WB_promoteProgress, WB_backRankGuard,
    WB_kingProximity, WB_trappedKing, WB_simplification, WB_captureSwing, WB_captureTargets]

/-- Counterexample to claim C9 as stated: at a concrete inactivity-draw
position with no captures available, the interior search (at depth 0) and
quiescence of the clocked variant both return the draw score 0, although the
static evaluation is 575 ≠ 0 — so they do return early on the inactivity
test, which the claim says never happens below the root. -/
theorem C9_counterexample_interior_inactivity_draw :
    isDrawByInactivity ⟨Side.P1, 0, b1 28 ||| b1 30, 0, b1 3, 20⟩ = true ∧
      ((generateMoves ⟨Side.P1, 0, b1 28 ||| b1 30, 0, b1 3, 20⟩).all fun m =>
        m.captured.isEmpty) = true ∧
      (quiesceB ⟨Side.P1, 0, b1 28 ||| b1 30, 0, b1 3, 20⟩ (-INF) INF false 0 0).1 = 0 ∧
      (alphabetaB ⟨Side.P1, 0, b1 28 ||| b1 30, 0, b1 3, 20⟩ 0 (-INF) INF false
        (Acc.fresh []) 0).1 = 0 ∧
      evaluate ⟨Side.P1, 0, b1 28 ||| b1 30, 0, b1 3, 20⟩ ≠ 0 := by
  refine ⟨by decide, by decide, ?_, ?_, by rw [evaluate_at_c9pos]; decide⟩
  · exact quiesceBF_draw _ _ (-INF) INF false 0 (by decide)
  · exact alphabetaBF_draw _ _ 0 (-INF) INF false (Acc.fresh []) 0 (by decide)

/-! ## C7: the mate score of a position without moves -/

/-- Claim C7 (amended): when the side to move has no legal moves, the
interior search of the newer variant returns the mate score
`-(999999 - ply)` — provided additionally that the transposition table holds
no entry under the position's hash, since the TT probe precedes the
move-generation step and a stored entry is returned as-is.  No exception is
involved: the loss surfaces only as this score. -/
theorem C7_no_moves_mate_score (pos : Position) (depth alpha beta : Int)
    (acc : Acc) (ply : Nat) (budget : Nat)
    (hdepth : 1 ≤ depth) (hply : ply < MAXPLY_A)
    (htt : mapGet (hashPosition pos) acc.tt = none)
    (hmoves : generateMoves pos = []) :
    (alphabetaA pos depth alpha beta false acc ply budget).1 =
      -(999999 - (ply : Int)) := by
  obtain ⟨k, hk⟩ : ∃ k, MAXPLY_A - ply = k + 1 := ⟨MAXPLY_A - ply - 1, by omega⟩
  have h0 : ¬(depth ≤ 0) := by omega
  have hfb : ((false : Bool) = true) = False := by simp
  rw [alphabetaA, hk]
  simp only [alphabetaAF, hfb, if_false, if_neg h0, htt, hmoves, ttProbe,
    List.isEmpty_nil, eq_self_iff_true, if_true]
  omega

/-- Witness for C7 at a concrete stalemated position (P1 to move with no
pieces) and an empty transposition table. -/
theorem C7_no_moves_mate_score_witness :
    generateMoves ⟨Side.P1, 0, 0, b1 5, 0, 0⟩ = [] ∧
      (alphabetaA ⟨Side.P1, 0, 0, b1 5, 0, 0⟩ 1 (-INF) INF false (Acc.fresh []) 0 1).1 =
        -(999999 - ((0 : Nat) : Int)) :=
  ⟨by decide, C7_no_moves_mate_score _ 1 (-INF) INF (Acc.fresh []) 0 1 (by decide)
    (by decide) rfl (by decide)⟩

/-- Counterexample to claim C7 as stated: at the same no-move position, with
a transposition table holding an EXACT entry of depth 5 under the position's
hash, `alphabeta` at depth 1, ply 0, with the deadline not passed, returns
the stored score 0 instead of `-(999999 - 0)` — the TT probe precedes the
empty-move-set check. -/
theorem C7_counterexample_tt_hit :
    generateMoves ⟨Side.P1, 0, 0, b1 5, 0, 0⟩ = [] ∧
      (alphabetaA ⟨Side.P1, 0, 0, b1 5, 0, 0⟩ 1 (-INF) INF false
        (Acc.fresh [⟨hashPosition ⟨Side.P1, 0, 0, b1 5, 0, 0⟩, 5, 0, none, Bound.EXACT⟩])
        0 1).1 = 0 ∧
      (0 : Int) ≠ -(999999 - ((0 : Nat) : Int)) := by
  refine ⟨by decide, by decide, by decide⟩

/-! ## C2: a man's capture chain ends on the promotion row -/

/-- From a square of the mover's promotion row a man has no forward step at
all, so the capture scan offers no jump there, whatever the boards hold. -/
theorem menJumpTargets_promo (side : Side) (cur : Nat)
    (h : willPromote side cur = true) (a b c d : Nat) :
    menJumpTargets side cur a b c d = [] := by
  cases side with
  | P1 =>
    simp only [willPromote, LAST_RANK_P1, List.contains] at h
    have hm : cur ∈ [0, 1, 2, 3] := List.mem_of_elem_eq_true h
    fin_cases hm <;> rfl
  | P2 =>
    simp only [willPromote, LAST_RANK_P2, List.contains] at h
    have hm : cur ∈ [28, 29, 30, 31] := List.mem_of_elem_eq_true h
    fin_cases hm <;> rfl

/-- Claim C2: when the capture DFS of `genMenCapturesFrom` (the engine of
`generateMoves` for men) lands a man on its promotion row, the chain ends
there: exactly one move is emitted, its `to` is that landing square, its
`promote` flag is true, and no further jump is appended — for every board
state, path and capture stack of the chain.  (`path.getLast? = some cur`
and `caps ≠ []` are the invariants of a chain that has just jumped to
`cur`; the fuel is positive on every reachable call.) -/
theorem C2_promotion_ends_chain (side : Side) (from0 cur fuel : Nat)
    (myMenB myKingsB opMenB opKingsB : Nat) (path caps : List Nat)
    (hpromo : willPromote side cur = true)
    (hcaps : caps ≠ [])
    (hpath : path.getLast? = some cur)
    (hfuel : 0 < fuel) :
    menDfs side from0 fuel cur myMenB myKingsB opMenB opKingsB path caps =
      [⟨from0, cur, caps, true⟩] := by
  obtain ⟨k, rfl⟩ : ∃ k, fuel = k + 1 := ⟨fuel - 1, by omega⟩
  rw [menDfs, menJumpTargets_promo side cur hpromo]
  simp [hcaps, hpath, hpromo]

/-- Witness for C2: a P1 man from square 9 that has just jumped over 5 and
landed on promotion square 0 emits exactly the promoting move. -/
theorem C2_promotion_ends_chain_witness :
    menDfs Side.P1 9 33 0 (b1 0) 0 0 0 [0] [5] = [⟨9, 0, [5], true⟩] :=
  C2_promotion_ends_chain Side.P1 9 0 33 (b1 0) 0 0 0 [0] [5] (by decide) (by decide)
    (by decide) (by decide)

/-! ## C3: the geometry of one king jump -/

/-- Claim C3: each single jump of a king capture chain (every jump the DFS of
`genKingCapturesFrom` makes goes through `kingJumpInDir`) is characterised
exactly: the jump in direction `dir` exists iff the ray from the king's
square consists of zero or more empty squares, then one enemy (no friendly
piece anywhere before it), and then the landing square, which is the square
immediately beyond the enemy and must be empty.  Since `kingJumpInDir`
returns at most one landing per direction, no farther landing along the ray
is ever offered for that jump. -/
theorem C3_king_jump_geometry (myB opB cur : Nat) (dir : Dir) (e l : Nat) :
    kingJumpInDir myB opB cur dir = some (e, l) ↔
      ∃ pre rest, rayL cur dir = pre ++ e :: l :: rest ∧
        (∀ s ∈ pre, ¬myB.testBit s ∧ ¬opB.testBit s) ∧
        ¬myB.testBit e ∧ opB.testBit e ∧
        ¬myB.testBit l ∧ ¬opB.testBit l := by
  rw [kingJumpInDir]
  generalize rayL cur dir = ray
  constructor
  · intro h
    induction ray with
    | nil => simp [kingScan] at h
    | cons sq rest ih =>
      rw [kingScan] at h
      by_cases h1 : myB.testBit sq
      · simp [h1] at h
      · by_cases h2 : opB.testBit sq
        · rw [if_neg h1, if_pos h2] at h
          cases rest with
          | nil => simp [kingLand] at h
          | cons l2 rest2 =>
            rw [kingLand] at h
            by_cases h3 : myB.testBit l2
            · simp [h3] at h
            · by_cases h4 : opB.testBit l2
              · simp [h3, h4] at h
              · rw [if_neg h3, if_neg h4] at h
                obtain ⟨he, hl⟩ : sq = e ∧ l2 = l := by
                  simpa using h
                subst he; subst hl
                exact ⟨[], rest2, rfl, by simp, h1, h2, h3, h4⟩
        · rw [if_neg h1, if_neg h2] at h
          obtain ⟨pre, rest2, hray, hpre, hrest⟩ := ih h
          exact ⟨sq :: pre, rest2, by rw [hray, List.cons_append], by
            intro s hs
            rcases List.mem_cons.mp hs with rfl | hs2
            · exact ⟨h1, h2⟩
            · exact hpre s hs2, hrest⟩
  · rintro ⟨pre, rest, hray, hpre, hme, hoe, hml, hol⟩
    subst hray
    induction pre with
    | nil =>
      simp only [List.nil_append]
      rw [kingScan, if_neg hme, if_pos hoe, kingLand, if_neg hml, if_neg hol]
    | cons s pre2 ih =>
      have hs := hpre s (List.mem_cons_self s pre2)
      simp only [List.cons_append]
      rw [kingScan, if_neg hs.1, if_neg hs.2]
      exact ih fun s2 hs2 => hpre s2 (List.mem_cons_of_mem s hs2)

/-- Witness for C3: the scenario of the specification (a lone P1 king on 28,
a P2 man on 14 along the UR ray, everything else empty) yields the jump
capturing 14 and landing on 10, the square immediately beyond. -/
theorem C3_king_jump_geometry_witness :
    kingJumpInDir (b1 28) (b1 14) 28 Dir.UR = some (14, 10) :=
  (C3_king_jump_geometry (b1 28) (b1 14) 28 Dir.UR 14 10).mpr
    ⟨[24, 21, 17], [7, 3], by decide, by decide, by decide, by decide, by decide, by decide⟩

/-! ## C1: the maximum-length capture rule is not enforced -/

/-- Claim C1 fails on this code: at a position where one P1 man can capture
one piece (24 over 21 to 17) and another can capture two (31 over 26 and 18
to 15), `generateMoves` returns both chains — the `captured`-length-1 move
is not discarded although the maximum is 2.  The specification requires that
only maximum-length capture moves survive. -/
theorem C1_short_chain_not_discarded :
    generateMoves ⟨Side.P1, b1 24 ||| b1 31, 0, b1 21 ||| b1 26 ||| b1 18, 0, 0⟩ =
        [⟨24, 17, [21], false⟩, ⟨31, 15, [26, 18], false⟩] ∧
      (⟨24, 17, [21], false⟩ : Move).captured.length = 1 ∧
      (⟨31, 15, [26, 18], false⟩ : Move).captured.length = 2 := by
  refine ⟨by decide, rfl, rfl⟩


/-! ## C8: quiescence stand-pat, via bounds on the evaluator -/


theorem bitCount_le_32 (x : Nat) : bitCount x ≤ 32 := by
  calc bitCount x ≤ (List.range 32).length := List.length_filter_le _ _
    _ = 32 := List.length_range 32

theorem STEPS_length_le (i : Nat) : (STEPS i).length ≤ 4 := by
  rw [STEPS]
  exact le_trans (List.length_filterMap_le _ _) (by simp)

theorem foldl_range {α : Type} (f : Int → α → Int) (c : Int)
    (h : ∀ s a, s ≤ f s a ∧ f s a ≤ s + c) (l : List α) :
    ∀ init : Int, init ≤ l.foldl f init ∧ l.foldl f init ≤ init + c * l.length := by
  induction l with
  | nil => intro init; simp
  | cons x xs ih =>
    intro init
    rw [List.foldl_cons]
    have h1 := h init x
    have h2 := ih (f init x)
    refine ⟨le_trans h1.1 h2.1, ?_⟩
    have hr : c * ((x :: xs).length : Int) = c * (xs.length : Int) + c := by
      simp [List.length_cons]; ring
    rw [hr]
    linarith [h1.2, h2.2]

theorem foldl_inv {γ α : Type} (P : γ → Prop) (f : γ → α → γ) (l : List α) :
    ∀ init, P init → (∀ s a, a ∈ l → P s → P (f s a)) → P (l.foldl f init) := by
  induction l with
  | nil => intro init h _; simpa using h
  | cons x xs ih =>
    intro init h hstep
    rw [List.foldl_cons]
    exact ih (f init x) (hstep init x (List.mem_cons_self x xs) h)
      fun s a ha hs => hstep s a (List.mem_cons_of_mem x ha) hs

theorem toRC_le (i : Nat) : (toRC i).1 ≤ 7 ∧ (toRC i).2 ≤ 7 := by
  by_cases h : i < 32
  · exact (by decide : ∀ j, j < 32 → (toRC j).1 ≤ 7 ∧ (toRC j).2 ≤ 7) i h
  · have hlen : darkRCs.length = 32 := by decide
    rw [toRC, List.getD_eq_default]
    · exact ⟨by norm_num, by norm_num⟩
    · omega


theorem promotionDistanceSum_bounds (p : Position) (side : Side) :
    0 ≤ promotionDistanceSum p side ∧ promotionDistanceSum p side ≤ 224 := by
  cases side with
  | P1 =>
    rw [promotionDistanceSum]
    have h := foldl_range (fun s i => s + (match Side.P1 with
        | Side.P1 => ((toRC i).1 : Int)
        | Side.P2 => 7 - ((toRC i).1 : Int))) 7
      (fun s a => by
        have := toRC_le a
        constructor <;> simp <;> omega) (bitsList p.p1Men) 0
    have hlen : (bitsList p.p1Men).length ≤ 32 := bitCount_le_32 _
    refine ⟨h.1, le_trans h.2 ?_⟩
    have : (7 : Int) * (bitsList p.p1Men).length ≤ 7 * 32 := by
      have : ((bitsList p.p1Men).length : Int) ≤ 32 := by exact_mod_cast hlen
      nlinarith
    omega
  | P2 =>
    rw [promotionDistanceSum]
    have h := foldl_range (fun s i => s + (match Side.P2 with
        | Side.P1 => ((toRC i).1 : Int)
        | Side.P2 => 7 - ((toRC i).1 : Int))) 7
      (fun s a => by
        have := toRC_le a
        constructor <;> simp <;> omega) (bitsList p.p2Men) 0
    have hlen : (bitsList p.p2Men).length ≤ 32 := bitCount_le_32 _
    refine ⟨h.1, le_trans h.2 ?_⟩
    have : ((bitsList p.p2Men).length : Int) ≤ 32 := by exact_mod_cast hlen
    nlinarith


theorem bitsList_length_le (x : Nat) : (bitsList x).length ≤ 32 := bitCount_le_32 x

theorem counting_foldl_bounds {α : Type} (l : List α) (f : Int → α → Int)
    (hstep : ∀ s a, s ≤ f s a ∧ f s a ≤ s + 1) (cap : Nat) (hlen : l.length ≤ cap) :
    0 ≤ l.foldl f 0 ∧ l.foldl f 0 ≤ (cap : Int) := by
  have h := foldl_range f 1 hstep l 0
  have hc : (l.length : Int) ≤ cap := by exact_mod_cast hlen
  exact ⟨h.1, by omega⟩

theorem centerScore_bounds (p : Position) (side : Side) :
    0 ≤ centerScore p side ∧ centerScore p side ≤ 64 := by
  cases side <;>
  · simp only [centerScore]
    refine counting_foldl_bounds _ _
      (fun s a => by constructor <;> split <;> omega) 64 ?_
    rw [List.length_append]
    have h1 := bitsList_length_le p.p1Men
    have h2 := bitsList_length_le p.p1Kings
    have h3 := bitsList_length_le p.p2Men
    have h4 := bitsList_length_le p.p2Kings
    omega

theorem backRankGuards_bounds (p : Position) (side : Side) :
    0 ≤ backRankGuards p side ∧ backRankGuards p side ≤ 32 := by
  cases side <;>
  · simp only [backRankGuards]
    refine counting_foldl_bounds _ _
      (fun s a => by constructor <;> split <;> omega) 32 ?_
    exact bitsList_length_le _

theorem trappedKings_bounds (p : Position) (side : Side) :
    0 ≤ trappedKings p side ∧ trappedKings p side ≤ 32 := by
  cases side <;>
  · simp only [trappedKings]
    refine counting_foldl_bounds _ _
      (fun s a => by constructor <;> split <;> omega) 32 ?_
    exact bitsList_length_le _


theorem steps_foldl_bounds (g : Int → Step → Int)
    (hg : ∀ s st, s ≤ g s st ∧ g s st ≤ s + 1) (s : Int) (a : Nat) :
    s ≤ (STEPS a).foldl g s ∧ (STEPS a).foldl g s ≤ s + 4 := by
  have h := foldl_range g 1 hg (STEPS a) s
  have hc : ((STEPS a).length : Int) ≤ 4 := by exact_mod_cast STEPS_length_le a
  exact ⟨h.1, by omega⟩

theorem outer_foldl_bounds (l : List Nat) (g : Int → Nat → Int) (c : Int) (cap : Nat)
    (hstep : ∀ s a, s ≤ g s a ∧ g s a ≤ s + c) (hlen : l.length ≤ cap) (hc : 0 ≤ c) :
    0 ≤ l.foldl g 0 ∧ l.foldl g 0 ≤ c * cap := by
  have h := foldl_range g c hstep l 0
  have hl : (l.length : Int) ≤ cap := by exact_mod_cast hlen
  refine ⟨h.1, le_trans h.2 ?_⟩
  nlinarith

theorem mobility_bounds (p : Position) (side : Side) :
    0 ≤ (mobility p side).1 ∧ (mobility p side).1 ≤ 128 ∧
      0 ≤ (mobility p side).2 ∧ (mobility p side).2 ≤ 128 := by
  cases side <;>
  · simp only [mobility]
    have hb : ∀ x : Nat,
        0 ≤ (bitsList x).foldl (fun n i => (STEPS i).foldl
          (fun n st => if forwardDir Side.P1 st.dir = true ∧
            ¬(occupied p).testBit st.toSq = true then n + 1 else n) n) (0 : Int) ∧
        (bitsList x).foldl (fun n i => (STEPS i).foldl
          (fun n st => if forwardDir Side.P1 st.dir = true ∧
            ¬(occupied p).testBit st.toSq = true then n + 1 else n) n) (0 : Int) ≤ 128 := by
      intro x
      have h := outer_foldl_bounds (bitsList x)
        (fun n i => (STEPS i).foldl
          (fun n st => if forwardDir Side.P1 st.dir = true ∧ ¬(occupied p).testBit st.toSq = true then n + 1 else n) n) 4 32
        (fun s a => steps_foldl_bounds
          (fun n st => if forwardDir Side.P1 st.dir = true ∧ ¬(occupied p).testBit st.toSq = true then n + 1 else n)
          (fun s2 st => by constructor <;> simp only [] <;> split <;> omega) s a)
        (bitsList_length_le x) (by norm_num)
      exact ⟨h.1, le_trans h.2 (by norm_num)⟩
    have hb2 : ∀ x : Nat,
        0 ≤ (bitsList x).foldl (fun n i => (STEPS i).foldl
          (fun n st => if forwardDir Side.P2 st.dir = true ∧
            ¬(occupied p).testBit st.toSq = true then n + 1 else n) n) (0 : Int) ∧
        (bitsList x).foldl (fun n i => (STEPS i).foldl
          (fun n st => if forwardDir Side.P2 st.dir = true ∧
            ¬(occupied p).testBit st.toSq = true then n + 1 else n) n) (0 : Int) ≤ 128 := by
      intro x
      have h := outer_foldl_bounds (bitsList x)
        (fun n i => (STEPS i).foldl
          (fun n st => if forwardDir Side.P2 st.dir = true ∧ ¬(occupied p).testBit st.toSq = true then n + 1 else n) n) 4 32
        (fun s a => steps_foldl_bounds
          (fun n st => if forwardDir Side.P2 st.dir = true ∧ ¬(occupied p).testBit st.toSq = true then n + 1 else n)
          (fun s2 st => by constructor <;> simp only [] <;> split <;> omega) s a)
        (bitsList_length_le x) (by norm_num)
      exact ⟨h.1, le_trans h.2 (by norm_num)⟩
    have hk : ∀ x : Nat,
        0 ≤ (bitsList x).foldl (fun n i => (STEPS i).foldl
          (fun n st => if ¬(occupied p).testBit st.toSq = true then n + 1 else n) n) (0 : Int) ∧
        (bitsList x).foldl (fun n i => (STEPS i).foldl
          (fun n st => if ¬(occupied p).testBit st.toSq = true then n + 1 else n) n) (0 : Int) ≤ 128 := by
      intro x
      have h := outer_foldl_bounds (bitsList x)
        (fun n i => (STEPS i).foldl
          (fun n st => if ¬(occupied p).testBit st.toSq = true then n + 1 else n) n) 4 32
        (fun s a => steps_foldl_bounds
          (fun n st => if ¬(occupied p).testBit st.toSq = true then n + 1 else n)
          (fun s2 st => by constructor <;> simp only [] <;> split <;> omega) s a)
        (bitsList_length_le x) (by norm_num)
      exact ⟨h.1, le_trans h.2 (by norm_num)⟩
    first
    | exact ⟨(hb _).1, (hb _).2, (hk _).1, (hk _).2⟩
    | exact ⟨(hb2 _).1, (hb2 _).2, (hk _).1, (hk _).2⟩


theorem kpg_aux (a b : Nat) :
    0 ≤ (if (kingProxSums a b).2 = 0 then (0 : ℚ)
         else max 0 (6 - ((kingProxSums a b).1 : ℚ) / ((kingProxSums a b).2 : ℚ))) ∧
      (if (kingProxSums a b).2 = 0 then (0 : ℚ)
       else max 0 (6 - ((kingProxSums a b).1 : ℚ) / ((kingProxSums a b).2 : ℚ))) ≤ 6 := by
  split
  · norm_num
  · constructor
    · exact le_max_left 0 _
    · apply max_le (by norm_num)
      have h : (0 : ℚ) ≤ ((kingProxSums a b).1 : ℚ) / ((kingProxSums a b).2 : ℚ) := by
        positivity
      linarith

theorem kingProximityGain_bounds (p : Position) (side : Side) :
    0 ≤ kingProximityGain p side ∧ kingProximityGain p side ≤ 6 := by
  cases side <;>
  · simp only [kingProximityGain]
    split
    · norm_num
    · exact kpg_aux _ _

theorem menDfs_captured_le (side : Side) (from0 : Nat) :
    ∀ (fuel cur a b c d : Nat) (path caps : List Nat) (m : Move),
      m ∈ menDfs side from0 fuel cur a b c d path caps →
      m.captured.length ≤ caps.length + fuel := by
  intro fuel
  induction fuel with
  | zero =>
    intro cur a b c d path caps m hm
    rw [menDfs] at hm
    simp at hm
  | succ k ih =>
    intro cur a b c d path caps m hm
    rw [menDfs] at hm
    by_cases hjs : (menJumpTargets side cur a b c d).isEmpty
    · rw [if_pos hjs] at hm
      by_cases hc : caps.isEmpty
      · rw [if_pos hc] at hm
        simp at hm
      · rw [if_neg hc] at hm
        have hm2 := List.mem_singleton.mp hm
        subst hm2
        simp
    · rw [if_neg hjs] at hm
      obtain ⟨ol, _, hm2⟩ := List.mem_flatMap.mp hm
      simp only [] at hm2
      have := ih _ _ _ _ _ _ _ m hm2
      simp [List.length_append] at this
      omega

theorem kingDfs_captured_le (from0 : Nat) :
    ∀ (fuel cur a b c d : Nat) (path caps : List Nat) (m : Move),
      m ∈ kingDfs from0 fuel cur a b c d path caps →
      m.captured.length ≤ caps.length + fuel := by
  intro fuel
  induction fuel with
  | zero =>
    intro cur a b c d path caps m hm
    rw [kingDfs] at hm
    simp at hm
  | succ k ih =>
    intro cur a b c d path caps m hm
    rw [kingDfs] at hm
    by_cases hjs : (([Dir.UL, Dir.UR, Dir.DL, Dir.DR]).filterMap fun dir =>
        kingJumpInDir (a ||| b) (c ||| d) cur dir).isEmpty
    · rw [if_pos hjs] at hm
      by_cases hc : caps.isEmpty
      · rw [if_pos hc] at hm
        simp at hm
      · rw [if_neg hc] at hm
        have hm2 := List.mem_singleton.mp hm
        subst hm2
        simp
    · rw [if_neg hjs] at hm
      obtain ⟨ol, _, hm2⟩ := List.mem_flatMap.mp hm
      simp only [] at hm2
      have := ih _ _ _ _ _ _ _ m hm2
      simp [List.length_append] at this
      omega


theorem quietMenMoves_captured (p : Position) (m : Move) (hm : m ∈ quietMenMoves p) :
    m.captured = [] := by
  rw [quietMenMoves] at hm
  obtain ⟨frm, _, hm2⟩ := List.mem_flatMap.mp hm
  obtain ⟨st, _, hf⟩ := List.mem_filterMap.mp hm2
  split at hf
  · split at hf
    · exact absurd hf (by simp)
    · obtain rfl := Option.some_injective _ hf
      rfl
  · exact absurd hf (by simp)

theorem quietKingMoves_captured (p : Position) (m : Move) (hm : m ∈ quietKingMoves p) :
    m.captured = [] := by
  rw [quietKingMoves] at hm
  obtain ⟨frm, _, hm2⟩ := List.mem_flatMap.mp hm
  obtain ⟨dir, _, hm3⟩ := List.mem_flatMap.mp hm2
  obtain ⟨sq, _, hf⟩ := List.mem_map.mp hm3
  obtain rfl := hf.symm
  rfl

theorem generateMoves_captured_le (p : Position) (m : Move)
    (hm : m ∈ generateMoves p) : m.captured.length ≤ 33 := by
  simp only [generateMoves] at hm
  split at hm
  · rcases List.mem_append.mp hm with h | h
    · rw [quietMenMoves_captured p m h]
      simp
    · rw [quietKingMoves_captured p m h]
      simp
  · rcases List.mem_append.mp hm with h | h
    · obtain ⟨frm, _, hm2⟩ := List.mem_flatMap.mp h
      rw [genMenCapturesFrom] at hm2
      have := menDfs_captured_le p.side frm FUEL frm _ _ _ _ [] [] m hm2
      simpa [FUEL] using this
    · obtain ⟨frm, _, hm2⟩ := List.mem_flatMap.mp h
      rw [genKingCapturesFrom] at hm2
      split at hm2
      · have := kingDfs_captured_le frm FUEL frm _ _ _ _ [] [] m hm2
        simpa [FUEL] using this
      · exact absurd hm2 (by simp)

theorem captureInfo_bounds (p : Position) (side : Side) :
    (captureInfo p side).1 ≤ 33 ∧ (captureInfo p side).2 ≤ 32 := by
  rcases hgm : generateMoves (if p.side = side then p else { p with side := side })
    with _ | ⟨m0, rest⟩
  · simp [captureInfo, hgm]
  · have hall : ∀ m ∈ m0 :: rest, m.captured.length ≤ 33 := by
      intro m hmem
      exact generateMoves_captured_le _ m (hgm ▸ hmem)
    simp only [captureInfo, hgm]
    split
    · simp
    · constructor
      · exact foldl_inv (fun s => s ≤ 33)
          (fun mc m => if mc < m.captured.length then m.captured.length else mc)
          (m0 :: rest) 0 (by omega)
          (fun s a ha hs => by
            have := hall a ha
            simp only [] at hs ⊢
            split <;> omega)
      · exact bitCount_le_32 _


theorem mul_range (w x W a : Int) (h1 : 0 ≤ w) (h2 : w ≤ W) (h3 : -a ≤ x) (h4 : x ≤ a) :
    -(W * a) ≤ w * x ∧ w * x ≤ W * a := by
  have ha : 0 ≤ a := by linarith
  constructor <;> nlinarith

theorem egOf_bounds (p : Position) : 0 ≤ egOf p ∧ egOf p ≤ 1 := by
  simp only [egOf]
  constructor
  · have h1 : min 1 ((bitCount (p.p1Men ||| p.p1Kings ||| p.p2Men ||| p.p2Kings) : ℚ) /
        (START_TOTAL : ℚ)) ≤ 1 := min_le_left _ _
    have h2 : max 0 (min 1 ((bitCount (p.p1Men ||| p.p1Kings ||| p.p2Men ||| p.p2Kings) : ℚ) /
        (START_TOTAL : ℚ))) ≤ 1 := max_le (by norm_num) h1
    linarith
  · have : (0 : ℚ) ≤ max 0 (min 1 ((bitCount (p.p1Men ||| p.p1Kings ||| p.p2Men ||| p.p2Kings) : ℚ) /
        (START_TOTAL : ℚ))) := le_max_left _ _
    linarith

theorem jsRound_bounds (q c : ℚ) (h0 : 0 ≤ q) (hc : q ≤ c) :
    0 ≤ jsRound q ∧ jsRound q ≤ ⌊c + 1 / 2⌋ := by
  rw [jsRound]
  exact ⟨Int.floor_nonneg.mpr (by linarith), Int.floor_le_floor (by linarith)⟩

theorem wKingOf_bounds (p : Position) : 60 ≤ wKingOf p ∧ wKingOf p ≤ 210 := by
  simp only [wKingOf]
  split_ifs <;> norm_num [WB_king]

theorem wPromOf_bounds (p : Position) : 6 ≤ wPromOf p ∧ wPromOf p ≤ 12 := by
  have he := egOf_bounds p
  have hj := jsRound_bounds (6 * egOf p) 6 (by linarith) (by linarith)
  have h6 : (⌊(6 : ℚ) + 1 / 2⌋ : Int) = 6 := by norm_num
  rw [wPromOf, WB_promoteProgress]
  omega

theorem simpWOf_bounds (p : Position) : 6 ≤ simpWOf p ∧ simpWOf p ≤ 24 := by
  have he := egOf_bounds p
  have hj := jsRound_bounds (8 * egOf p) 8 (by linarith) (by linarith)
  have h8 : (⌊(8 : ℚ) + 1 / 2⌋ : Int) = 8 := by norm_num
  rw [simpWOf, WB_simplification]
  split_ifs <;> omega

theorem captureSwingTermOf_bounds (p : Position) :
    -3630 ≤ captureSwingTermOf p ∧ captureSwingTermOf p ≤ 3630 := by
  simp only [captureSwingTermOf]
  split
  · have hw : (90 : Int) ≤ WB_captureSwing + (if (7 : ℚ) / 10 ≤ egOf p then 20 else 0) ∧
        WB_captureSwing + (if (7 : ℚ) / 10 ≤ egOf p then 20 else 0) ≤ 110 := by
      rw [WB_captureSwing]
      split_ifs <;> omega
    have h1 := (captureInfo_bounds p p.side).1
    have h2 := (captureInfo_bounds p p.side.other).1
    have hd : -(33 : Int) ≤ ((captureInfo p p.side).1 : Int) -
        ((captureInfo p p.side.other).1 : Int) ∧
        ((captureInfo p p.side).1 : Int) - ((captureInfo p p.side.other).1 : Int) ≤ 33 := by
      omega
    have := mul_range _ _ 110 33 (by omega) hw.2 hd.1 hd.2
    omega
  · omega

theorem captureTargetsTermOf_bounds (p : Position) :
    -1568 ≤ captureTargetsTermOf p ∧ captureTargetsTermOf p ≤ 1568 := by
  simp only [captureTargetsTermOf]
  split
  · have he := egOf_bounds p
    have hj := jsRound_bounds (4 * egOf p) 4 (by linarith) (by linarith)
    have h4 : (⌊(4 : ℚ) + 1 / 2⌋ : Int) = 4 := by norm_num
    have hw : (45 : Int) ≤ WB_captureTargets + jsRound (4 * egOf p) ∧
        WB_captureTargets + jsRound (4 * egOf p) ≤ 49 := by
      rw [WB_captureTargets]
      omega
    have h1 := (captureInfo_bounds p p.side).2
    have h2 := (captureInfo_bounds p p.side.other).2
    have hd : -(32 : Int) ≤ ((captureInfo p p.side).2 : Int) -
        ((captureInfo p p.side.other).2 : Int) ∧
        ((captureInfo p p.side).2 : Int) - ((captureInfo p p.side.other).2 : Int) ≤ 32 := by
      omega
    have := mul_range _ _ 49 32 (by omega) hw.2 hd.1 hd.2
    omega
  · omega


set_option maxHeartbeats 1000000 in
theorem scoreOf_bounds (p : Position) : -20000 ≤ scoreOf p ∧ scoreOf p ≤ 20000 := by
  have hbm := bitCount_le_32 (sideMen p)
  have hbk := bitCount_le_32 (sideKings p)
  have hom := bitCount_le_32 (oppMen p)
  have hok := bitCount_le_32 (oppKings p)
  -- material
  have h1 := mul_range WB_man ((bitCount (sideMen p) : Int) - bitCount (oppMen p)) 100 32
    (by norm_num [WB_man]) (by norm_num [WB_man]) (by omega) (by omega)
  have hk := wKingOf_bounds p
  have h2 := mul_range (wKingOf p) ((bitCount (sideKings p) : Int) - bitCount (oppKings p))
    210 32 (by omega) hk.2 (by omega) (by omega)
  -- mobility
  have hmb1 := mobility_bounds p p.side
  have hmb2 := mobility_bounds { p with side := p.side.other } p.side.other
  have h3 := mul_range WB_mobilityMen ((mobility p p.side).1 -
      (mobility { p with side := p.side.other } p.side.other).1) 2 128
    (by norm_num [WB_mobilityMen]) (by norm_num [WB_mobilityMen])
    (by omega) (by omega)
  have h4 := mul_range WB_mobilityKing ((mobility p p.side).2 -
      (mobility { p with side := p.side.other } p.side.other).2) 3 128
    (by norm_num [WB_mobilityKing]) (by norm_num [WB_mobilityKing])
    (by omega) (by omega)
  -- center
  have hc1 := centerScore_bounds p p.side
  have hc2 := centerScore_bounds p p.side.other
  have h5 := mul_range WB_center (centerScore p p.side - centerScore p p.side.other) 2 64
    (by norm_num [WB_center]) (by norm_num [WB_center]) (by omega) (by omega)
  -- promotion (rational term)
  have hpr1 := promotionDistanceSum_bounds p p.side
  have hpr2 := promotionDistanceSum_bounds p p.side.other
  have hw := wPromOf_bounds p
  have h6 : -(2688 : ℚ) ≤ (wPromOf p : ℚ) * ((promotionDistanceSum p p.side.other : ℚ) -
      (promotionDistanceSum p p.side : ℚ)) ∧
      (wPromOf p : ℚ) * ((promotionDistanceSum p p.side.other : ℚ) -
        (promotionDistanceSum p p.side : ℚ)) ≤ 2688 := by
    have hi := mul_range (wPromOf p)
      (promotionDistanceSum p p.side.other - promotionDistanceSum p p.side) 12 224
      (by omega) hw.2 (by omega) (by omega)
    constructor <;>
    · have := hi.1
      have := hi.2
      push_cast
      exact_mod_cast by push_cast at *; linarith
  -- back rank
  have hg1 := backRankGuards_bounds p p.side
  have hg2 := backRankGuards_bounds p p.side.other
  have h7 := mul_range WB_backRankGuard
    (backRankGuards p p.side - backRankGuards p p.side.other) 3 32
    (by norm_num [WB_backRankGuard]) (by norm_num [WB_backRankGuard]) (by omega) (by omega)
  -- proximity (rational term)
  have hx1 := kingProximityGain_bounds p p.side
  have hx2 := kingProximityGain_bounds p p.side.other
  -- trapped kings
  have ht1 := trappedKings_bounds p p.side
  have ht2 := trappedKings_bounds p p.side.other
  have h9 : -(384 : Int) ≤ WB_trappedKing * (trappedKings p p.side - trappedKings p p.side.other) ∧
      WB_trappedKing * (trappedKings p p.side - trappedKings p p.side.other) ≤ 384 := by
    have := mul_range 12 (trappedKings p p.side.other - trappedKings p p.side) 12 32
      (by norm_num) (by norm_num) (by omega) (by omega)
    rw [WB_trappedKing]
    constructor <;> nlinarith [this.1, this.2]
  -- captures
  have h10 := captureSwingTermOf_bounds p
  have h11 := captureTargetsTermOf_bounds p
  -- simplification
  have hs := simpWOf_bounds p
  have h12 : -(2688 : Int) ≤ simpWOf p * ((START_TOTAL : Int) -
      ((bitCount (sideMen p) + bitCount (sideKings p) + opAllOf p : Nat) : Int)) ∧
      simpWOf p * ((START_TOTAL : Int) -
        ((bitCount (sideMen p) + bitCount (sideKings p) + opAllOf p : Nat) : Int)) ≤ 2688 := by
    have hop : opAllOf p ≤ 64 := by
      rw [opAllOf]
      omega
    have := mul_range (simpWOf p) ((START_TOTAL : Int) -
        ((bitCount (sideMen p) + bitCount (sideKings p) + opAllOf p : Nat) : Int)) 24 112
      (by omega) hs.2 (by rw [START_TOTAL]; push_cast; omega)
      (by rw [START_TOTAL]; push_cast; omega)
    omega
  have q1 : (-3200 : ℚ) ≤ ((WB_man * ((bitCount (sideMen p) : Int) - bitCount (oppMen p)) : Int) : ℚ) ∧
      ((WB_man * ((bitCount (sideMen p) : Int) - bitCount (oppMen p)) : Int) : ℚ) ≤ 3200 :=
    ⟨by exact_mod_cast h1.1, by exact_mod_cast h1.2⟩
  have q2 : (-6720 : ℚ) ≤ ((wKingOf p * ((bitCount (sideKings p) : Int) - bitCount (oppKings p)) : Int) : ℚ) ∧
      ((wKingOf p * ((bitCount (sideKings p) : Int) - bitCount (oppKings p)) : Int) : ℚ) ≤ 6720 :=
    ⟨by exact_mod_cast h2.1, by exact_mod_cast h2.2⟩
  have q3 : (-256 : ℚ) ≤ ((WB_mobilityMen * ((mobility p p.side).1 -
        (mobility { p with side := p.side.other } p.side.other).1) : Int) : ℚ) ∧
      ((WB_mobilityMen * ((mobility p p.side).1 -
        (mobility { p with side := p.side.other } p.side.other).1) : Int) : ℚ) ≤ 256 :=
    ⟨by exact_mod_cast h3.1, by exact_mod_cast h3.2⟩
  have q4 : (-384 : ℚ) ≤ ((WB_mobilityKing * ((mobility p p.side).2 -
        (mobility { p with side := p.side.other } p.side.other).2) : Int) : ℚ) ∧
      ((WB_mobilityKing * ((mobility p p.side).2 -
        (mobility { p with side := p.side.other } p.side.other).2) : Int) : ℚ) ≤ 384 :=
    ⟨by exact_mod_cast h4.1, by exact_mod_cast h4.2⟩
  have q5 : (-128 : ℚ) ≤ ((WB_center * (centerScore p p.side - centerScore p p.side.other) : Int) : ℚ) ∧
      ((WB_center * (centerScore p p.side - centerScore p p.side.other) : Int) : ℚ) ≤ 128 :=
    ⟨by exact_mod_cast h5.1, by exact_mod_cast h5.2⟩
  have q7 : (-96 : ℚ) ≤ ((WB_backRankGuard * (backRankGuards p p.side - backRankGuards p p.side.other) : Int) : ℚ) ∧
      ((WB_backRankGuard * (backRankGuards p p.side - backRankGuards p p.side.other) : Int) : ℚ) ≤ 96 :=
    ⟨by exact_mod_cast h7.1, by exact_mod_cast h7.2⟩
  have q8 : (-12 : ℚ) ≤ (WB_kingProximity : ℚ) *
        (kingProximityGain p p.side - kingProximityGain p p.side.other) ∧
      (WB_kingProximity : ℚ) *
        (kingProximityGain p p.side - kingProximityGain p p.side.other) ≤ 12 := by
    rw [WB_kingProximity]
    push_cast
    constructor <;> nlinarith [hx1.1, hx1.2, hx2.1, hx2.2]
  have q9 : (-384 : ℚ) ≤ ((WB_trappedKing * (trappedKings p p.side - trappedKings p p.side.other) : Int) : ℚ) ∧
      ((WB_trappedKing * (trappedKings p p.side - trappedKings p p.side.other) : Int) : ℚ) ≤ 384 :=
    ⟨by exact_mod_cast h9.1, by exact_mod_cast h9.2⟩
  have q10 : (-3630 : ℚ) ≤ ((captureSwingTermOf p : Int) : ℚ) ∧
      ((captureSwingTermOf p : Int) : ℚ) ≤ 3630 :=
    ⟨by exact_mod_cast h10.1, by exact_mod_cast h10.2⟩
  have q11 : (-1568 : ℚ) ≤ ((captureTargetsTermOf p : Int) : ℚ) ∧
      ((captureTargetsTermOf p : Int) : ℚ) ≤ 1568 :=
    ⟨by exact_mod_cast h11.1, by exact_mod_cast h11.2⟩
  have q12 : (-2688 : ℚ) ≤ ((simpWOf p * ((START_TOTAL : Int) -
        ((bitCount (sideMen p) + bitCount (sideKings p) + opAllOf p : Nat) : Int)) : Int) : ℚ) ∧
      ((simpWOf p * ((START_TOTAL : Int) -
        ((bitCount (sideMen p) + bitCount (sideKings p) + opAllOf p : Nat) : Int)) : Int) : ℚ) ≤ 2688 :=
    ⟨by exact_mod_cast h12.1, by exact_mod_cast h12.2⟩
  have q13 : (0 : ℚ) ≤ ((if leadingOf p ∧ opAllOf p = 1 then (140 : Int) else 0) : Int) ∧
      (((if leadingOf p ∧ opAllOf p = 1 then (140 : Int) else 0) : Int) : ℚ) ≤ 140 := by
    constructor <;> split_ifs <;> norm_num
  have q14 : (0 : ℚ) ≤ ((if leadingOf p ∧ opAllOf p ≤ 2 then (70 : Int) else 0) : Int) ∧
      (((if leadingOf p ∧ opAllOf p ≤ 2 then (70 : Int) else 0) : Int) : ℚ) ≤ 70 := by
    constructor <;> split_ifs <;> norm_num
  rw [scoreOf]
  constructor <;>
    linarith [q1.1, q1.2, q2.1, q2.2, q3.1, q3.2, q4.1, q4.2, q5.1, q5.2, h6.1, h6.2,
      q7.1, q7.2, q8.1, q8.2, q9.1, q9.2, q10.1, q10.2, q11.1, q11.2, q12.1, q12.2,
      q13.1, q13.2, q14.1, q14.2]


theorem toInt32_id (t : Int) (h1 : -(2 ^ 31) ≤ t) (h2 : t < 2 ^ 31) : toInt32 t = t := by
  rw [toInt32]
  omega

theorem evaluate_bounds (p : Position) : -20000 ≤ evaluate p ∧ evaluate p ≤ 20000 := by
  have hs := scoreOf_bounds p
  rw [evaluate, ratToInt32]
  split
  · have hf1 : (-20000 : Int) ≤ ⌊scoreOf p⌋ := by
      have : ((-20000 : Int) : ℚ) ≤ scoreOf p := by exact_mod_cast hs.1
      exact Int.le_floor.mpr this
    have hf2 : ⌊scoreOf p⌋ ≤ 20000 := by
      have : scoreOf p ≤ ((20000 : Int) : ℚ) := by exact_mod_cast hs.2
      calc ⌊scoreOf p⌋ ≤ ⌊((20000 : Int) : ℚ)⌋ := Int.floor_le_floor this
        _ = 20000 := Int.floor_intCast _
    rw [toInt32_id _ (by omega) (by omega)]
    omega
  · have hf1 : (-20000 : Int) ≤ ⌊-scoreOf p⌋ ∧ ⌊-scoreOf p⌋ ≤ 20000 := by
      constructor
      · have : ((-20000 : Int) : ℚ) ≤ -scoreOf p := by
          push_cast
          linarith [hs.2]
        exact Int.le_floor.mpr this
      · have : -scoreOf p ≤ ((20000 : Int) : ℚ) := by
          push_cast
          linarith [hs.1]
        calc ⌊-scoreOf p⌋ ≤ ⌊((20000 : Int) : ℚ)⌋ := Int.floor_le_floor this
          _ = 20000 := Int.floor_intCast _
    rw [toInt32_id _ (by omega) (by omega)]
    omega

/-- Claim C8: at a position whose move list contains no capture, variant A's
quiescence with the full window returns the stand-pat value `evaluate pos`
unchanged. -/
theorem C8_quiesce_standpat (pos : Position) (nodes ply : Nat)
    (hply : ply < MAXPLY_A)
    (hnc : ∀ m ∈ generateMoves pos, m.captured = []) :
    (quiesceA pos (-INF) INF false nodes ply).1 = evaluate pos := by
  obtain ⟨k, hk⟩ : ∃ k, MAXPLY_A - ply = k + 1 := ⟨MAXPLY_A - ply - 1, by omega⟩
  rw [quiesceA, hk, quiesceAF]
  have hfb : ((false : Bool) = true) = False := by simp
  have hcaps : (generateMoves pos).filter (fun m => 0 < m.captured.length) = [] := by
    rw [List.filter_eq_nil_iff]
    intro a ha
    simp [hnc a ha]
  simp only [hfb, if_false, hcaps, sortDesc, List.foldl_nil]
  by_cases hb : INF ≤ evaluate pos
  · rw [if_pos hb]
  · rw [if_neg hb]
    have hlow : -INF < evaluate pos := by
      have := (evaluate_bounds pos).1
      rw [INF]
      omega
    rw [if_pos hlow]

theorem C8_quiesce_standpat_witness :
    (quiesceA initialPosition (-INF) INF false 0 0).1 = evaluate initialPosition :=
  C8_quiesce_standpat initialPosition 0 0 (by decide) (by decide)


/-! ## C4: proofs -/

lemma tb_or {x y j : Nat} : tb (x ||| y) j ↔ tb x j ∨ tb y j := by
  unfold tb; rw [Nat.testBit_or, Bool.or_eq_true]

lemma tb_and {x y j : Nat} : tb (x &&& y) j ↔ tb x j ∧ tb y j := by
  unfold tb; rw [Nat.testBit_and, Bool.and_eq_true]

lemma b1_eq (i : Nat) : b1 i = 2 ^ i := Nat.one_shiftLeft i

lemma tb_b1 {i j : Nat} : tb (b1 i) j ↔ i = j := by
  unfold tb; rw [b1_eq, Nat.testBit_two_pow]; exact decide_eq_true_iff

lemma tb_not32_b1 {c : Nat} (hc : c < 32) (j : Nat) :
    tb (not32 (b1 c)) j ↔ j < 32 ∧ j ≠ c := by
  unfold tb not32
  rw [Nat.testBit_xor]
  have h1 : (0xFFFFFFFF : Nat).testBit j = decide (j < 32) := by
    have he : (0xFFFFFFFF : Nat) = 2 ^ 32 - 1 := by norm_num
    rw [he]; exact Nat.testBit_two_pow_sub_one 32 j
  rw [h1, b1_eq, Nat.testBit_two_pow]
  by_cases hj : j < 32 <;> by_cases hcj : c = j <;>
    simp [hj, hcj] <;> omega

lemma tb_lt32 {x j : Nat} (hx : x < 2 ^ 32) (h : tb x j) : j < 32 := by
  by_contra hj
  push_neg at hj
  have h1 : 2 ^ j ≤ x := Nat.testBit_implies_ge h
  have h2 : (2 : Nat) ^ 32 ≤ 2 ^ j := Nat.pow_le_pow_right (by norm_num) hj
  omega

lemma tb_clear {x c : Nat} (hx : x < 2 ^ 32) (hc : c < 32) (j : Nat) :
    tb (x &&& not32 (b1 c)) j ↔ tb x j ∧ j ≠ c := by
  rw [tb_and, tb_not32_b1 hc]
  constructor
  · rintro ⟨h1, _, h3⟩; exact ⟨h1, h3⟩
  · rintro ⟨h1, h2⟩; exact ⟨h1, tb_lt32 hx h1, h2⟩

lemma and_eq_zero_of {A B : Nat} (h : ∀ j, ¬(tb A j ∧ tb B j)) : A &&& B = 0 := by
  apply Nat.eq_of_testBit_eq
  intro i
  rw [Nat.testBit_and, Nat.zero_testBit]
  have hi := h i
  unfold tb at hi
  cases hA : A.testBit i <;> cases hB : B.testBit i <;> simp_all

lemma tb_disj_of_and_zero {A B : Nat} (h : A &&& B = 0) (j : Nat) :
    ¬(tb A j ∧ tb B j) := by
  rintro ⟨ha, hb⟩
  have ht : (A &&& B).testBit j = true := by
    rw [Nat.testBit_and, ha, hb]; rfl
  rw [h, Nat.zero_testBit] at ht
  exact Bool.false_ne_true ht

lemma and_b1_ne_zero {x c : Nat} : x &&& b1 c ≠ 0 ↔ tb x c := by
  constructor
  · intro h
    by_contra hc
    refine h (Nat.eq_of_testBit_eq fun i => ?_)
    rw [Nat.testBit_and, Nat.zero_testBit]
    by_cases hic : c = i
    · subst hic
      unfold tb at hc
      simp [Bool.eq_false_iff.mpr hc]
    · rw [b1_eq, Nat.testBit_two_pow]
      simp [hic]
  · intro h hz
    exact tb_disj_of_and_zero hz c ⟨h, tb_b1.mpr rfl⟩

lemma b1_lt {i : Nat} (hi : i < 32) : b1 i < 2 ^ 32 := by
  rw [b1_eq]
  exact Nat.pow_lt_pow_right (by norm_num) hi

lemma side_facts (p : Position) (hp : PosInv p) :
    sideMen p < 2 ^ 32 ∧ sideKings p < 2 ^ 32 ∧
    oppMen p < 2 ^ 32 ∧ oppKings p < 2 ^ 32 ∧
    (∀ j, ¬(tb (sideMen p) j ∧ tb (sideKings p) j)) ∧
    (∀ j, ¬(tb (sideMen p) j ∧ tb (oppMen p) j)) ∧
    (∀ j, ¬(tb (sideMen p) j ∧ tb (oppKings p) j)) ∧
    (∀ j, ¬(tb (sideKings p) j ∧ tb (oppMen p) j)) ∧
    (∀ j, ¬(tb (sideKings p) j ∧ tb (oppKings p) j)) ∧
    (∀ j, ¬(tb (oppMen p) j ∧ tb (oppKings p) j)) := by
  obtain ⟨c1, c2, c3, c4, d1, d2, d3, d4, d5, d6⟩ := hp
  cases h : p.side <;> simp only [sideMen, sideKings, oppMen, oppKings, h]
  · exact ⟨c1, c2, c3, c4,
      tb_disj_of_and_zero d1, tb_disj_of_and_zero d2, tb_disj_of_and_zero d3,
      tb_disj_of_and_zero d4, tb_disj_of_and_zero d5, tb_disj_of_and_zero d6⟩
  · refine ⟨c3, c4, c1, c2,
      tb_disj_of_and_zero d6,
      fun j hj => tb_disj_of_and_zero d2 j ⟨hj.2, hj.1⟩,
      fun j hj => tb_disj_of_and_zero d4 j ⟨hj.2, hj.1⟩,
      fun j hj => tb_disj_of_and_zero d3 j ⟨hj.2, hj.1⟩,
      fun j hj => tb_disj_of_and_zero d5 j ⟨hj.2, hj.1⟩,
      tb_disj_of_and_zero d1⟩

lemma tb_occupied (p : Position) (j : Nat) :
    tb (occupied p) j ↔
      tb (sideMen p) j ∨ tb (sideKings p) j ∨ tb (oppMen p) j ∨ tb (oppKings p) j := by
  cases h : p.side <;>
    simp only [occupied, sideMen, sideKings, oppMen, oppKings, h, tb_or] <;>
    tauto

lemma clearCaptured_spec :
    ∀ (caps : List Nat) (OM OK : Nat),
      OM < 2 ^ 32 → OK < 2 ^ 32 → (∀ j, ¬(tb OM j ∧ tb OK j)) →
      (∀ c ∈ caps, c < 32) →
      (∀ j, tb (clearCaptured caps OM OK).1 j ↔ tb OM j ∧ j ∉ caps) ∧
      (∀ j, tb (clearCaptured caps OM OK).2 j ↔ tb OK j ∧ j ∉ caps) ∧
      (clearCaptured caps OM OK).1 ≤ OM ∧ (clearCaptured caps OM OK).2 ≤ OK := by
  intro caps
  induction caps with
  | nil =>
    intro OM OK _ _ _ _
    simp [clearCaptured]
  | cons c rest ih =>
    intro OM OK hOM hOK hdisj hc
    have hc32 : c < 32 := (hc c (List.mem_cons_self c rest))
    have hrest : ∀ x ∈ rest, x < 32 := fun x hx => hc x (List.mem_cons_of_mem c hx)
    rw [clearCaptured]
    by_cases hhit : OM &&& b1 c ≠ 0
    · rw [if_pos hhit]
      have htbc : tb OM c := and_b1_ne_zero.mp hhit
      have hOM' : OM &&& not32 (b1 c) < 2 ^ 32 :=
        lt_of_le_of_lt Nat.and_le_left hOM
      have hchar : ∀ j, tb (OM &&& not32 (b1 c)) j ↔ tb OM j ∧ j ≠ c :=
        tb_clear hOM hc32
      have hdisj' : ∀ j, ¬(tb (OM &&& not32 (b1 c)) j ∧ tb OK j) := by
        intro j hj
        exact hdisj j ⟨((hchar j).mp hj.1).1, hj.2⟩
      obtain ⟨h1, h2, h3, h4⟩ := ih (OM &&& not32 (b1 c)) OK hOM' hOK hdisj' hrest
      refine ⟨?_, ?_, le_trans h3 Nat.and_le_left, h4⟩
      · intro j
        rw [h1 j, hchar j, List.mem_cons]
        constructor
        · rintro ⟨⟨ha, hb⟩, hrest'⟩
          exact ⟨ha, by rintro (h | h) <;> [exact hb h; exact hrest' h]⟩
        · rintro ⟨ha, hb⟩
          exact ⟨⟨ha, fun h => hb (Or.inl h)⟩, fun h => hb (Or.inr h)⟩
      · intro j
        rw [h2 j, List.mem_cons]
        constructor
        · rintro ⟨ha, hb⟩
          refine ⟨ha, ?_⟩
          rintro (h | h)
          · subst h; exact hdisj j ⟨htbc, ha⟩
          · exact hb h
        · rintro ⟨ha, hb⟩
          exact ⟨ha, fun h => hb (Or.inr h)⟩
    · rw [if_neg hhit]
      push_neg at hhit
      have hnc : ¬ tb OM c := fun h => (and_b1_ne_zero.mpr h) hhit
      have hOK' : OK &&& not32 (b1 c) < 2 ^ 32 :=
        lt_of_le_of_lt Nat.and_le_left hOK
      have hchar : ∀ j, tb (OK &&& not32 (b1 c)) j ↔ tb OK j ∧ j ≠ c :=
        tb_clear hOK hc32
      have hdisj' : ∀ j, ¬(tb OM j ∧ tb (OK &&& not32 (b1 c)) j) := by
        intro j hj
        exact hdisj j ⟨hj.1, ((hchar j).mp hj.2).1⟩
      obtain ⟨h1, h2, h3, h4⟩ := ih OM (OK &&& not32 (b1 c)) hOM hOK' hdisj' hrest
      refine ⟨?_, ?_, h3, le_trans h4 Nat.and_le_left⟩
      · intro j
        rw [h1 j, List.mem_cons]
        constructor
        · rintro ⟨ha, hb⟩
          refine ⟨ha, ?_⟩
          rintro (h | h)
          · subst h; exact hnc ha
          · exact hb h
        · rintro ⟨ha, hb⟩
          exact ⟨ha, fun h => hb (Or.inr h)⟩
      · intro j
        rw [h2 j, hchar j, List.mem_cons]
        constructor
        · rintro ⟨⟨ha, hb⟩, hrest'⟩
          exact ⟨ha, by rintro (h | h) <;> [exact hb h; exact hrest' h]⟩
        · rintro ⟨ha, hb⟩
          exact ⟨⟨ha, fun h => hb (Or.inl h)⟩, fun h => hb (Or.inr h)⟩

lemma applyMoveCore_inv
    (M K OM OK : Nat) (m : Move)
    (hM : M < 2 ^ 32) (hK : K < 2 ^ 32) (hOM : OM < 2 ^ 32) (hOK : OK < 2 ^ 32)
    (dMK : ∀ j, ¬(tb M j ∧ tb K j))
    (dMOM : ∀ j, ¬(tb M j ∧ tb OM j))
    (dMOK : ∀ j, ¬(tb M j ∧ tb OK j))
    (dKOM : ∀ j, ¬(tb K j ∧ tb OM j))
    (dKOK : ∀ j, ¬(tb K j ∧ tb OK j))
    (dOMOK : ∀ j, ¬(tb OM j ∧ tb OK j))
    (hfrom : m.fromSq < 32) (hto : m.toSq < 32)
    (hcap : ∀ c ∈ m.captured, c < 32 ∧ tb (OM ||| OK) c)
    (hsrc : tb (M ||| K) m.fromSq)
    (hfree : tb (M ||| K ||| OM ||| OK) m.toSq →
      m.toSq = m.fromSq ∨ m.toSq ∈ m.captured) :
    (applyMoveCore M K OM OK m).1 < 2 ^ 32 ∧
    (applyMoveCore M K OM OK m).2.1 < 2 ^ 32 ∧
    (applyMoveCore M K OM OK m).2.2.1 < 2 ^ 32 ∧
    (applyMoveCore M K OM OK m).2.2.2 < 2 ^ 32 ∧
    (applyMoveCore M K OM OK m).1 &&& (applyMoveCore M K OM OK m).2.1 = 0 ∧
    (applyMoveCore M K OM OK m).1 &&& (applyMoveCore M K OM OK m).2.2.1 = 0 ∧
    (applyMoveCore M K OM OK m).1 &&& (applyMoveCore M K OM OK m).2.2.2 = 0 ∧
    (applyMoveCore M K OM OK m).2.1 &&& (applyMoveCore M K OM OK m).2.2.1 = 0 ∧
    (applyMoveCore M K OM OK m).2.1 &&& (applyMoveCore M K OM OK m).2.2.2 = 0 ∧
    (applyMoveCore M K OM OK m).2.2.1 &&& (applyMoveCore M K OM OK m).2.2.2 = 0 := by
  obtain ⟨hclm, hclk, hclem, hclek⟩ :=
    clearCaptured_spec m.captured OM OK hOM hOK dOMOK (fun c hc => (hcap c hc).1)
  have hcl1 : (clearCaptured m.captured OM OK).1 < 2 ^ 32 := lt_of_le_of_lt hclem hOM
  have hcl2 : (clearCaptured m.captured OM OK).2 < 2 ^ 32 := lt_of_le_of_lt hclek hOK
  have hfree' : tb M m.toSq ∨ tb K m.toSq ∨ tb OM m.toSq ∨ tb OK m.toSq →
      m.toSq = m.fromSq ∨ m.toSq ∈ m.captured := by
    intro h
    apply hfree
    rw [tb_or, tb_or, tb_or]
    tauto
  have hcap' : ∀ c ∈ m.captured, tb OM c ∨ tb OK c :=
    fun c hc => tb_or.mp (hcap c hc).2
  simp only [applyMoveCore]
  split_ifs with hmk hpr hpr
  · exact absurd hpr hmk.2
  · -- a man moves and promotes
    have hnK : ¬ tb K m.fromSq := fun h => hpr (and_b1_ne_zero.mpr h)
    have hsM : tb M m.fromSq := by
      rcases tb_or.mp hsrc with h | h
      · exact h
      · exact absurd h hnK
    have hm2lt : M &&& not32 (b1 m.fromSq) ||| b1 m.toSq < 2 ^ 32 :=
      Nat.or_lt_two_pow (lt_of_le_of_lt Nat.and_le_left hM) (b1_lt hto)
    have hm2c : ∀ j, tb (M &&& not32 (b1 m.fromSq) ||| b1 m.toSq) j ↔
        (tb M j ∧ j ≠ m.fromSq) ∨ m.toSq = j := by
      intro j
      rw [tb_or, tb_clear hM hfrom, tb_b1]
    have hr1c : ∀ j,
        tb ((M &&& not32 (b1 m.fromSq) ||| b1 m.toSq) &&& not32 (b1 m.toSq)) j ↔
        tb M j ∧ j ≠ m.fromSq ∧ j ≠ m.toSq := by
      intro j
      rw [tb_clear hm2lt hto, hm2c]
      constructor
      · rintro ⟨⟨hm', hne⟩ | he, hneT⟩
        · exact ⟨hm', hne, hneT⟩
        · exact absurd he.symm hneT
      · rintro ⟨hm', hne, hneT⟩
        exact ⟨Or.inl ⟨hm', hne⟩, hneT⟩
    have hr2c : ∀ j, tb (K ||| b1 m.toSq) j ↔ tb K j ∨ m.toSq = j := by
      intro j
      rw [tb_or, tb_b1]
    refine ⟨lt_of_le_of_lt Nat.and_le_left hm2lt,
      Nat.or_lt_two_pow hK (b1_lt hto), hcl1, hcl2, ?_, ?_, ?_, ?_, ?_, ?_⟩
    · refine and_eq_zero_of fun j hj => ?_
      obtain ⟨h1, h2⟩ := hj
      obtain ⟨hm', _, hneT⟩ := (hr1c j).mp h1
      rcases (hr2c j).mp h2 with hk | rfl
      · exact dMK j ⟨hm', hk⟩
      · exact hneT rfl
    · refine and_eq_zero_of fun j hj => ?_
      obtain ⟨h1, h2⟩ := hj
      exact dMOM j ⟨((hr1c j).mp h1).1, ((hclm j).mp h2).1⟩
    · refine and_eq_zero_of fun j hj => ?_
      obtain ⟨h1, h2⟩ := hj
      exact dMOK j ⟨((hr1c j).mp h1).1, ((hclk j).mp h2).1⟩
    · refine and_eq_zero_of fun j hj => ?_
      obtain ⟨h1, h2⟩ := hj
      obtain ⟨hom, hnc⟩ := (hclm j).mp h2
      rcases (hr2c j).mp h1 with hk | rfl
      · exact dKOM j ⟨hk, hom⟩
      · rcases hfree' (Or.inr (Or.inr (Or.inl hom))) with he | hc
        · rw [he] at hom; exact dMOM m.fromSq ⟨hsM, hom⟩
        · exact hnc hc
    · refine and_eq_zero_of fun j hj => ?_
      obtain ⟨h1, h2⟩ := hj
      obtain ⟨hok, hnc⟩ := (hclk j).mp h2
      rcases (hr2c j).mp h1 with hk | rfl
      · exact dKOK j ⟨hk, hok⟩
      · rcases hfree' (Or.inr (Or.inr (Or.inr hok))) with he | hc
        · rw [he] at hok; exact dMOK m.fromSq ⟨hsM, hok⟩
        · exact hnc hc
    · refine and_eq_zero_of fun j hj => ?_
      obtain ⟨h1, h2⟩ := hj
      exact dOMOK j ⟨((hclm j).mp h1).1, ((hclk j).mp h2).1⟩
  · -- a king moves
    have hKF : tb K m.fromSq := and_b1_ne_zero.mp hpr
    have hr2c : ∀ j, tb (K &&& not32 (b1 m.fromSq) ||| b1 m.toSq) j ↔
        (tb K j ∧ j ≠ m.fromSq) ∨ m.toSq = j := by
      intro j
      rw [tb_or, tb_clear hK hfrom, tb_b1]
    refine ⟨hM, Nat.or_lt_two_pow (lt_of_le_of_lt Nat.and_le_left hK) (b1_lt hto),
      hcl1, hcl2, ?_, ?_, ?_, ?_, ?_, ?_⟩
    · refine and_eq_zero_of fun j hj => ?_
      obtain ⟨h1, h2⟩ := hj
      rcases (hr2c j).mp h2 with ⟨hk, _⟩ | rfl
      · exact dMK j ⟨h1, hk⟩
      · rcases hfree' (Or.inl h1) with he | hc
        · rw [he] at h1; exact dMK m.fromSq ⟨h1, hKF⟩
        · rcases hcap' _ hc with h | h
          · exact dMOM _ ⟨h1, h⟩
          · exact dMOK _ ⟨h1, h⟩
    · refine and_eq_zero_of fun j hj => ?_
      obtain ⟨h1, h2⟩ := hj
      exact dMOM j ⟨h1, ((hclm j).mp h2).1⟩
    · refine and_eq_zero_of fun j hj => ?_
      obtain ⟨h1, h2⟩ := hj
      exact dMOK j ⟨h1, ((hclk j).mp h2).1⟩
    · refine and_eq_zero_of fun j hj => ?_
      obtain ⟨h1, h2⟩ := hj
      obtain ⟨hom, hnc⟩ := (hclm j).mp h2
      rcases (hr2c j).mp h1 with ⟨hk, _⟩ | rfl
      · exact dKOM j ⟨hk, hom⟩
      · rcases hfree' (Or.inr (Or.inr (Or.inl hom))) with he | hc
        · rw [he] at hom; exact dKOM m.fromSq ⟨hKF, hom⟩
        · exact hnc hc
    · refine and_eq_zero_of fun j hj => ?_
      obtain ⟨h1, h2⟩ := hj
      obtain ⟨hok, hnc⟩ := (hclk j).mp h2
      rcases (hr2c j).mp h1 with ⟨hk, _⟩ | rfl
      · exact dKOK j ⟨hk, hok⟩
      · rcases hfree' (Or.inr (Or.inr (Or.inr hok))) with he | hc
        · rw [he] at hok; exact dKOK m.fromSq ⟨hKF, hok⟩
        · exact hnc hc
    · refine and_eq_zero_of fun j hj => ?_
      obtain ⟨h1, h2⟩ := hj
      exact dOMOK j ⟨((hclm j).mp h1).1, ((hclk j).mp h2).1⟩
  · -- a man moves without promoting
    have hnK : ¬ tb K m.fromSq := fun h => hpr (and_b1_ne_zero.mpr h)
    have hsM : tb M m.fromSq := by
      rcases tb_or.mp hsrc with h | h
      · exact h
      · exact absurd h hnK
    have hr1c : ∀ j, tb (M &&& not32 (b1 m.fromSq) ||| b1 m.toSq) j ↔
        (tb M j ∧ j ≠ m.fromSq) ∨ m.toSq = j := by
      intro j
      rw [tb_or, tb_clear hM hfrom, tb_b1]
    refine ⟨Nat.or_lt_two_pow (lt_of_le_of_lt Nat.and_le_left hM) (b1_lt hto),
      hK, hcl1, hcl2, ?_, ?_, ?_, ?_, ?_, ?_⟩
    · refine and_eq_zero_of fun j hj => ?_
      obtain ⟨h1, h2⟩ := hj
      rcases (hr1c j).mp h1 with ⟨hm', _⟩ | rfl
      · exact dMK j ⟨hm', h2⟩
      · rcases hfree' (Or.inr (Or.inl h2)) with he | hc
        · rw [he] at h2; exact dMK m.fromSq ⟨hsM, h2⟩
        · rcases hcap' _ hc with h | h
          · exact dKOM _ ⟨h2, h⟩
          · exact dKOK _ ⟨h2, h⟩
    · refine and_eq_zero_of fun j hj => ?_
      obtain ⟨h1, h2⟩ := hj
      obtain ⟨hom, hnc⟩ := (hclm j).mp h2
      rcases (hr1c j).mp h1 with ⟨hm', _⟩ | rfl
      · exact dMOM j ⟨hm', hom⟩
      · rcases hfree' (Or.inr (Or.inr (Or.inl hom))) with he | hc
        · rw [he] at hom; exact dMOM m.fromSq ⟨hsM, hom⟩
        · exact hnc hc
    · refine and_eq_zero_of fun j hj => ?_
      obtain ⟨h1, h2⟩ := hj
      obtain ⟨hok, hnc⟩ := (hclk j).mp h2
      rcases (hr1c j).mp h1 with ⟨hm', _⟩ | rfl
      · exact dMOK j ⟨hm', hok⟩
      · rcases hfree' (Or.inr (Or.inr (Or.inr hok))) with he | hc
        · rw [he] at hok; exact dMOK m.fromSq ⟨hsM, hok⟩
        · exact hnc hc
    · refine and_eq_zero_of fun j hj => ?_
      obtain ⟨h1, h2⟩ := hj
      exact dKOM j ⟨h1, ((hclm j).mp h2).1⟩
    · refine and_eq_zero_of fun j hj => ?_
      obtain ⟨h1, h2⟩ := hj
      exact dKOK j ⟨h1, ((hclk j).mp h2).1⟩
    · refine and_eq_zero_of fun j hj => ?_
      obtain ⟨h1, h2⟩ := hj
      exact dOMOK j ⟨((hclm j).mp h1).1, ((hclk j).mp h2).1⟩

lemma and_zero_comm {x y : Nat} (h : x &&& y = 0) : y &&& x = 0 := by
  rw [Nat.and_comm]; exact h

lemma applyMove_inv (p : Position) (m : Move) (hp : PosInv p) (hm : MoveOK p m) :
    PosInv (applyMove p m) := by
  obtain ⟨c1, c2, c3, c4, d1, d2, d3, d4, d5, d6⟩ := side_facts p hp
  obtain ⟨hfrom, hto, _, hcap, hsrc, hfree⟩ := hm
  have hfree2 : tb (sideMen p ||| sideKings p ||| oppMen p ||| oppKings p) m.toSq →
      m.toSq = m.fromSq ∨ m.toSq ∈ m.captured := by
    intro h
    apply hfree
    rw [tb_occupied]
    rw [tb_or, tb_or, tb_or] at h
    tauto
  have hcore := applyMoveCore_inv (sideMen p) (sideKings p) (oppMen p) (oppKings p) m
    c1 c2 c3 c4 d1 d2 d3 d4 d5 d6 hfrom hto hcap hsrc hfree2
  cases hside : p.side
  · simp only [sideMen, sideKings, oppMen, oppKings, hside] at hcore
    obtain ⟨hb1, hb2, hb3, hb4, he1, he2, he3, he4, he5, he6⟩ := hcore
    simp only [applyMove, hside]
    exact ⟨hb1, hb2, hb3, hb4, he1, he2, he3, he4, he5, he6⟩
  · simp only [sideMen, sideKings, oppMen, oppKings, hside] at hcore
    obtain ⟨hb1, hb2, hb3, hb4, he1, he2, he3, he4, he5, he6⟩ := hcore
    simp only [applyMove, hside]
    exact ⟨hb3, hb4, hb1, hb2, he6, and_zero_comm he2, and_zero_comm he4,
      and_zero_comm he3, and_zero_comm he5, he1⟩

lemma darkRCs_length : darkRCs.length = 32 := by decide

lemma toIndex?_lt {r c : Int} {j : Nat} (h : toIndex? r c = some j) : j < 32 := by
  simp only [toIndex?] at h
  split at h
  · split at h
    · rename_i hlt
      rw [darkRCs_length] at hlt
      injection h with h'
      omega
    · exact absurd h (by simp)
  · exact absurd h (by simp)

lemma STEPS_toSq_lt {i : Nat} {st : Step} (h : st ∈ STEPS i) : st.toSq < 32 := by
  simp only [STEPS, List.mem_filterMap] at h
  obtain ⟨d, _, hd⟩ := h
  revert hd
  split
  · rename_i j hj
    intro hd
    injection hd with hd
    subst hd
    exact toIndex?_lt hj
  · intro hd
    exact absurd hd (by simp)

lemma nextInDir_lt {frm : Nat} {dir : Dir} {n : Nat}
    (h : nextInDir frm dir = some n) : n < 32 := by
  unfold nextInDir at h
  rw [Option.map_eq_some'] at h
  obtain ⟨st, hst, he⟩ := h
  subst he
  exact STEPS_toSq_lt (List.mem_of_find?_eq_some hst)

lemma rayAux_lt {dir : Dir} : ∀ {fuel cur s : Nat}, s ∈ rayAux dir fuel cur → s < 32 := by
  intro fuel
  induction fuel with
  | zero => intro cur s h; exact absurd h (by simp [rayAux])
  | succ k ih =>
    intro cur s h
    rw [rayAux] at h
    revert h
    split
    · intro h; exact absurd h (by simp)
    · rename_i nxt hnxt
      intro h
      rcases List.mem_cons.mp h with rfl | h
      · exact nextInDir_lt hnxt
      · exact ih h

lemma rayL_lt {frm : Nat} {dir : Dir} {s : Nat} (h : s ∈ rayL frm dir) : s < 32 :=
  rayAux_lt h

lemma bitsList_mem {x j : Nat} : j ∈ bitsList x ↔ j < 32 ∧ tb x j := by
  unfold bitsList tb
  rw [List.mem_filter, List.mem_range]

lemma getLast_concat_getD {l : List Nat} {a d : Nat} :
    (l ++ [a]).getLast?.getD d = a := by
  rw [List.getLast?_concat]
  rfl

lemma menJumpTargets_mem {side : Side} {cur M K OM OK over landing : Nat}
    (h : (over, landing) ∈ menJumpTargets side cur M K OM OK) :
    over < 32 ∧ landing < 32 ∧ tb (OM ||| OK) over ∧
      ¬ tb (M ||| K ||| OM ||| OK) landing := by
  simp only [menJumpTargets, List.mem_filterMap] at h
  obtain ⟨st, hst, hd⟩ := h
  revert hd
  split
  · split
    · split
      · rename_i hnext
        split
        · intro hd; exact absurd hd (by simp)
        · rename_i hocc
          intro hd
          injection hd with hd
          rw [Prod.mk.injEq] at hd
          obtain ⟨rfl, rfl⟩ := hd
          exact ⟨STEPS_toSq_lt hst, nextInDir_lt hnext, by assumption,
            fun hc => hocc hc⟩
      · intro hd; exact absurd hd (by simp)
    · intro hd; exact absurd hd (by simp)
  · intro hd; exact absurd hd (by simp)

lemma kingScan_mem {myB opB : Nat} :
    ∀ {ray : List Nat} {e l : Nat}, kingScan myB opB ray = some (e, l) →
      e ∈ ray ∧ l ∈ ray ∧ tb opB e ∧ ¬ tb myB l ∧ ¬ tb opB l := by
  intro ray
  induction ray with
  | nil => intro e l h; exact absurd h (by simp [kingScan])
  | cons sq rest ih =>
    intro e l h
    rw [kingScan] at h
    split at h
    · exact absurd h (by simp)
    · split at h
      · -- first enemy found at sq; the landing is the next ray square
        rename_i hmy hop
        cases rest with
        | nil => rw [kingLand] at h; exact absurd h (by simp)
        | cons l1 tl =>
          rw [kingLand] at h
          split at h
          · exact absurd h (by simp)
          · split at h
            · exact absurd h (by simp)
            · rename_i hmyl hopl
              injection h with h
              rw [Prod.mk.injEq] at h
              obtain ⟨rfl, rfl⟩ := h
              exact ⟨List.mem_cons_self _ _,
                List.mem_cons_of_mem _ (List.mem_cons_self _ _),
                hop, fun hc => hmyl hc, fun hc => hopl hc⟩
      · obtain ⟨h1, h2, h3, h4, h5⟩ := ih h
        exact ⟨List.mem_cons_of_mem _ h1, List.mem_cons_of_mem _ h2, h3, h4, h5⟩

lemma nodup_concat {l : List Nat} {a : Nat} (hl : l.Nodup) (ha : a ∉ l) :
    (l ++ [a]).Nodup := by
  simp [List.nodup_append, ha, hl]

lemma menDfs_sound (p : Position) (hp : PosInv p) (from0 : Nat)
    (hf0 : from0 < 32) (hsrc : tb (sideMen p) from0) :
    ∀ (fuel cur M K OM OK : Nat) (path caps : List Nat),
      MenInvariant p from0 cur M K OM OK path caps →
      ∀ m ∈ menDfs p.side from0 fuel cur M K OM OK path caps, MoveOK p m := by
  obtain ⟨s1, s2, s3, s4, dMK, dMOM, dMOK, dKOM, dKOK, dOMOK⟩ := side_facts p hp
  intro fuel
  induction fuel with
  | zero =>
    intro cur M K OM OK path caps _ m hm
    exact absurd hm (by simp [menDfs])
  | succ k ih =>
    intro cur M K OM OK path caps hinv m hm
    obtain ⟨i1, i2, i3, i4, i5, i6, i7, i8, i9, i10, i11, i12, i13⟩ := hinv
    simp only [menDfs] at hm
    split at hm
    · -- no further jump: a move is emitted iff something was captured
      split at hm
      · exact absurd hm (by simp)
      · rw [i10] at hm
        have hm' := List.mem_singleton.mp hm
        subst hm'
        exact ⟨hf0, i5, i8, i9, tb_or.mpr (Or.inl hsrc), i7⟩
    · -- recurse through each available jump
      rw [List.mem_flatMap] at hm
      obtain ⟨ol, holj, hm⟩ := hm
      obtain ⟨over, landing⟩ := ol
      dsimp only at hm
      have hmkf : K.testBit cur = false := by
        rw [i2]; exact Bool.eq_false_iff.mpr i6
      simp only [hmkf, Bool.false_eq_true, if_false] at hm
      obtain ⟨hov32, hld32, hovE, hldF⟩ := menJumpTargets_mem holj
      have hnM : ¬ tb M landing := fun h => hldF (by rw [tb_or, tb_or, tb_or]; tauto)
      have hnK : ¬ tb K landing := fun h => hldF (by rw [tb_or, tb_or, tb_or]; tauto)
      have hnOM : ¬ tb OM landing := fun h => hldF (by rw [tb_or, tb_or, tb_or]; tauto)
      have hnOK : ¬ tb OK landing := fun h => hldF (by rw [tb_or, tb_or, tb_or]; tauto)
      have hcurNO : ∀ {j : Nat}, tb (sideMen p) j → j ≠ from0 → j ≠ cur := by
        intro j hsm hne heq
        subst heq
        rcases i7 ((tb_occupied p _).mpr (Or.inl hsm)) with he | hc
        · exact hne he
        · rcases tb_or.mp ((i9 _ hc).2) with h | h
          · exact dMOM _ ⟨hsm, h⟩
          · exact dMOK _ ⟨hsm, h⟩
      have n1 : ∀ j, tb (M &&& not32 (b1 cur) ||| b1 landing) j ↔
          (tb (sideMen p) j ∧ j ≠ from0) ∨ j = landing := by
        intro j
        rw [tb_or, tb_clear i11 i5, tb_b1, i1 j]
        constructor
        · rintro (⟨⟨ha, hb⟩ | hcur, hc⟩ | hl)
          · exact Or.inl ⟨ha, hb⟩
          · exact absurd hcur hc
          · exact Or.inr hl.symm
        · rintro (⟨ha, hb⟩ | rfl)
          · exact Or.inl ⟨Or.inl ⟨ha, hb⟩, hcurNO ha hb⟩
          · exact Or.inr rfl
      have n6 : ¬ tb (sideKings p) landing := by rw [← i2]; exact hnK
      have n7 : tb (occupied p) landing →
          landing = from0 ∨ landing ∈ caps ++ [over] := by
        intro h
        rw [tb_occupied] at h
        rcases h with h | h | h | h
        · by_cases he : landing = from0
          · exact Or.inl he
          · exact absurd ((i1 landing).mpr (Or.inl ⟨h, he⟩)) hnM
        · rw [← i2] at h; exact absurd h hnK
        · by_cases hc : landing ∈ caps
          · exact Or.inr (by rw [List.mem_append]; exact Or.inl hc)
          · exact absurd ((i3 landing).mpr ⟨h, hc⟩) hnOM
        · by_cases hc : landing ∈ caps
          · exact Or.inr (by rw [List.mem_append]; exact Or.inl hc)
          · exact absurd ((i4 landing).mpr ⟨h, hc⟩) hnOK
      have n9 : ∀ c ∈ caps ++ [over], c < 32 ∧ tb (oppMen p ||| oppKings p) c := by
        intro c hc
        rw [List.mem_append, List.mem_singleton] at hc
        rcases hc with hc | rfl
        · exact i9 c hc
        · refine ⟨hov32, ?_⟩
          rcases tb_or.mp hovE with h | h
          · exact tb_or.mpr (Or.inl ((i3 c).mp h).1)
          · exact tb_or.mpr (Or.inr ((i4 c).mp h).1)
      have hovNC : over ∉ caps := by
        rcases tb_or.mp hovE with h | h
        · exact ((i3 over).mp h).2
        · exact ((i4 over).mp h).2
      have n8 : (caps ++ [over]).Nodup := nodup_concat i8 hovNC
      have n10 : (path ++ [landing]).getLast?.getD landing = landing :=
        getLast_concat_getD
      have n11 : M &&& not32 (b1 cur) ||| b1 landing < 2 ^ 32 :=
        Nat.or_lt_two_pow (lt_of_le_of_lt Nat.and_le_left i11) (b1_lt hld32)
      cases hck : OK.testBit over with
      | false =>
        simp only [hck, Bool.false_eq_true, if_false] at hm
        have hovOM : tb (oppMen p) over ∧ over ∉ caps := by
          rcases tb_or.mp hovE with h | h
          · exact (i3 over).mp h
          · exact absurd h (by unfold tb; rw [hck]; simp)
        have n3 : ∀ j, tb (OM &&& not32 (b1 over)) j ↔
            tb (oppMen p) j ∧ j ∉ caps ++ [over] := by
          intro j
          rw [tb_clear i12 hov32, i3 j, List.mem_append, List.mem_singleton]
          constructor
          · rintro ⟨⟨hom, hnc⟩, hne⟩
            exact ⟨hom, by rintro (h | rfl); exacts [hnc h, hne rfl]⟩
          · rintro ⟨hom, hnc⟩
            exact ⟨⟨hom, fun h => hnc (Or.inl h)⟩, fun h => hnc (Or.inr h)⟩
        have n4 : ∀ j, tb OK j ↔ tb (oppKings p) j ∧ j ∉ caps ++ [over] := by
          intro j
          rw [i4 j, List.mem_append, List.mem_singleton]
          constructor
          · rintro ⟨hok, hnc⟩
            refine ⟨hok, ?_⟩
            rintro (h | rfl)
            · exact hnc h
            · exact dOMOK j ⟨hovOM.1, hok⟩
          · rintro ⟨hok, hnc⟩
            exact ⟨hok, fun h => hnc (Or.inl h)⟩
        exact ih landing (M &&& not32 (b1 cur) ||| b1 landing) K
          (OM &&& not32 (b1 over)) OK (path ++ [landing]) (caps ++ [over])
          ⟨n1, i2, n3, n4, hld32, n6, n7, n8, n9, n10, n11,
            lt_of_le_of_lt Nat.and_le_left i12, i13⟩ m hm
      | true =>
        simp only [hck, eq_self_iff_true, if_true] at hm
        have hoOK : tb (oppKings p) over ∧ over ∉ caps := (i4 over).mp hck
        have n3 : ∀ j, tb OM j ↔ tb (oppMen p) j ∧ j ∉ caps ++ [over] := by
          intro j
          rw [i3 j, List.mem_append, List.mem_singleton]
          constructor
          · rintro ⟨hom, hnc⟩
            refine ⟨hom, ?_⟩
            rintro (h | rfl)
            · exact hnc h
            · exact dOMOK j ⟨hom, hoOK.1⟩
          · rintro ⟨hom, hnc⟩
            exact ⟨hom, fun h => hnc (Or.inl h)⟩
        have n4 : ∀ j, tb (OK &&& not32 (b1 over)) j ↔
            tb (oppKings p) j ∧ j ∉ caps ++ [over] := by
          intro j
          rw [tb_clear i13 hov32, i4 j, List.mem_append, List.mem_singleton]
          constructor
          · rintro ⟨⟨hok, hnc⟩, hne⟩
            exact ⟨hok, by rintro (h | rfl); exacts [hnc h, hne rfl]⟩
          · rintro ⟨hok, hnc⟩
            exact ⟨⟨hok, fun h => hnc (Or.inl h)⟩, fun h => hnc (Or.inr h)⟩
        exact ih landing (M &&& not32 (b1 cur) ||| b1 landing) K
          OM (OK &&& not32 (b1 over)) (path ++ [landing]) (caps ++ [over])
          ⟨n1, i2, n3, n4, hld32, n6, n7, n8, n9, n10, n11,
            i12, lt_of_le_of_lt Nat.and_le_left i13⟩ m hm

lemma kingDfs_sound (p : Position) (hp : PosInv p) (from0 : Nat)
    (hf0 : from0 < 32) (hsrc : tb (sideKings p) from0) :
    ∀ (fuel cur M K OM OK : Nat) (path caps : List Nat),
      KingInvariant p from0 cur M K OM OK path caps →
      ∀ m ∈ kingDfs from0 fuel cur M K OM OK path caps, MoveOK p m := by
  obtain ⟨s1, s2, s3, s4, dMK, dMOM, dMOK, dKOM, dKOK, dOMOK⟩ := side_facts p hp
  intro fuel
  induction fuel with
  | zero =>
    intro cur M K OM OK path caps _ m hm
    exact absurd hm (by simp [kingDfs])
  | succ k ih =>
    intro cur M K OM OK path caps hinv m hm
    obtain ⟨i1, i2, i3, i4, i5, i6, i7, i8, i9, i10, i11, i12, i13⟩ := hinv
    simp only [kingDfs] at hm
    split at hm
    · split at hm
      · exact absurd hm (by simp)
      · rw [i10] at hm
        have hm' := List.mem_singleton.mp hm
        subst hm'
        exact ⟨hf0, i5, i8, i9, tb_or.mpr (Or.inr hsrc), i7⟩
    · rw [List.mem_flatMap] at hm
      obtain ⟨el, helj, hm⟩ := hm
      obtain ⟨enemy, landing⟩ := el
      dsimp only at hm
      rw [List.mem_filterMap] at helj
      obtain ⟨dir, _, hdir⟩ := helj
      unfold kingJumpInDir at hdir
      obtain ⟨hmemE, hmemL, henE, hnMy, hnOp⟩ := kingScan_mem hdir
      have he32 : enemy < 32 := rayL_lt hmemE
      have hld32 : landing < 32 := rayL_lt hmemL
      have hnM : ¬ tb M landing := fun h => hnMy (tb_or.mpr (Or.inl h))
      have hnK : ¬ tb K landing := fun h => hnMy (tb_or.mpr (Or.inr h))
      have hnOM : ¬ tb OM landing := fun h => hnOp (tb_or.mpr (Or.inl h))
      have hnOK : ¬ tb OK landing := fun h => hnOp (tb_or.mpr (Or.inr h))
      have hcurNO : ∀ {j : Nat}, tb (sideKings p) j → j ≠ from0 → j ≠ cur := by
        intro j hsk hne heq
        subst heq
        rcases i7 ((tb_occupied p _).mpr (Or.inr (Or.inl hsk))) with he | hc
        · exact hne he
        · rcases tb_or.mp ((i9 _ hc).2) with h | h
          · exact dKOM _ ⟨hsk, h⟩
          · exact dKOK _ ⟨hsk, h⟩
      have n2 : ∀ j, tb (K &&& not32 (b1 cur) ||| b1 landing) j ↔
          (tb (sideKings p) j ∧ j ≠ from0) ∨ j = landing := by
        intro j
        rw [tb_or, tb_clear i11 i5, tb_b1, i2 j]
        constructor
        · rintro (⟨⟨ha, hb⟩ | hcur, hc⟩ | hl)
          · exact Or.inl ⟨ha, hb⟩
          · exact absurd hcur hc
          · exact Or.inr hl.symm
        · rintro (⟨ha, hb⟩ | rfl)
          · exact Or.inl ⟨Or.inl ⟨ha, hb⟩, hcurNO ha hb⟩
          · exact Or.inr rfl
      have n6 : ¬ tb (sideMen p) landing := by rw [← i1]; exact hnM
      have n7 : tb (occupied p) landing →
          landing = from0 ∨ landing ∈ caps ++ [enemy] := by
        intro h
        rw [tb_occupied] at h
        rcases h with h | h | h | h
        · rw [← i1] at h; exact absurd h hnM
        · by_cases he : landing = from0
          · exact Or.inl he
          · exact absurd ((i2 landing).mpr (Or.inl ⟨h, he⟩)) hnK
        · by_cases hc : landing ∈ caps
          · exact Or.inr (by rw [List.mem_append]; exact Or.inl hc)
          · exact absurd ((i3 landing).mpr ⟨h, hc⟩) hnOM
        · by_cases hc : landing ∈ caps
          · exact Or.inr (by rw [List.mem_append]; exact Or.inl hc)
          · exact absurd ((i4 landing).mpr ⟨h, hc⟩) hnOK
      have n9 : ∀ c ∈ caps ++ [enemy], c < 32 ∧ tb (oppMen p ||| oppKings p) c := by
        intro c hc
        rw [List.mem_append, List.mem_singleton] at hc
        rcases hc with hc | rfl
        · exact i9 c hc
        · refine ⟨he32, ?_⟩
          rcases tb_or.mp henE with h | h
          · exact tb_or.mpr (Or.inl ((i3 c).mp h).1)
          · exact tb_or.mpr (Or.inr ((i4 c).mp h).1)
      have hovNC : enemy ∉ caps := by
        rcases tb_or.mp henE with h | h
        · exact ((i3 enemy).mp h).2
        · exact ((i4 enemy).mp h).2
      have n8 : (caps ++ [enemy]).Nodup := nodup_concat i8 hovNC
      have n10 : (path ++ [landing]).getLast?.getD landing = landing :=
        getLast_concat_getD
      have n11 : K &&& not32 (b1 cur) ||| b1 landing < 2 ^ 32 :=
        Nat.or_lt_two_pow (lt_of_le_of_lt Nat.and_le_left i11) (b1_lt hld32)
      cases hck : OK.testBit enemy with
      | false =>
        simp only [hck, Bool.false_eq_true, if_false] at hm
        have hovOM : tb (oppMen p) enemy ∧ enemy ∉ caps := by
          rcases tb_or.mp henE with h | h
          · exact (i3 enemy).mp h
          · exact absurd h (by unfold tb; rw [hck]; simp)
        have n3 : ∀ j, tb (OM &&& not32 (b1 enemy)) j ↔
            tb (oppMen p) j ∧ j ∉ caps ++ [enemy] := by
          intro j
          rw [tb_clear i12 he32, i3 j, List.mem_append, List.mem_singleton]
          constructor
          · rintro ⟨⟨hom, hnc⟩, hne⟩
            exact ⟨hom, by rintro (h | rfl); exacts [hnc h, hne rfl]⟩
          · rintro ⟨hom, hnc⟩
            exact ⟨⟨hom, fun h => hnc (Or.inl h)⟩, fun h => hnc (Or.inr h)⟩
        have n4 : ∀ j, tb OK j ↔ tb (oppKings p) j ∧ j ∉ caps ++ [enemy] := by
          intro j
          rw [i4 j, List.mem_append, List.mem_singleton]
          constructor
          · rintro ⟨hok, hnc⟩
            refine ⟨hok, ?_⟩
            rintro (h | rfl)
            · exact hnc h
            · exact dOMOK j ⟨hovOM.1, hok⟩
          · rintro ⟨hok, hnc⟩
            exact ⟨hok, fun h => hnc (Or.inl h)⟩
        exact ih landing M (K &&& not32 (b1 cur) ||| b1 landing)
          (OM &&& not32 (b1 enemy)) OK (path ++ [landing]) (caps ++ [enemy])
          ⟨i1, n2, n3, n4, hld32, n6, n7, n8, n9, n10, n11,
            lt_of_le_of_lt Nat.and_le_left i12, i13⟩ m hm
      | true =>
        simp only [hck, eq_self_iff_true, if_true] at hm
        have hoOK : tb (oppKings p) enemy ∧ enemy ∉ caps := (i4 enemy).mp hck
        have n3 : ∀ j, tb OM j ↔ tb (oppMen p) j ∧ j ∉ caps ++ [enemy] := by
          intro j
          rw [i3 j, List.mem_append, List.mem_singleton]
          constructor
          · rintro ⟨hom, hnc⟩
            refine ⟨hom, ?_⟩
            rintro (h | rfl)
            · exact hnc h
            · exact dOMOK j ⟨hom, hoOK.1⟩
          · rintro ⟨hom, hnc⟩
            exact ⟨hom, fun h => hnc (Or.inl h)⟩
        have n4 : ∀ j, tb (OK &&& not32 (b1 enemy)) j ↔
            tb (oppKings p) j ∧ j ∉ caps ++ [enemy] := by
          intro j
          rw [tb_clear i13 he32, i4 j, List.mem_append, List.mem_singleton]
          constructor
          · rintro ⟨⟨hok, hnc⟩, hne⟩
            exact ⟨hok, by rintro (h | rfl); exacts [hnc h, hne rfl]⟩
          · rintro ⟨hok, hnc⟩
            exact ⟨⟨hok, fun h => hnc (Or.inl h)⟩, fun h => hnc (Or.inr h)⟩
        exact ih landing M (K &&& not32 (b1 cur) ||| b1 landing)
          OM (OK &&& not32 (b1 enemy)) (path ++ [landing]) (caps ++ [enemy])
          ⟨i1, n2, n3, n4, hld32, n6, n7, n8, n9, n10, n11,
            i12, lt_of_le_of_lt Nat.and_le_left i13⟩ m hm

lemma quietMenMoves_ok (p : Position) :
    ∀ m ∈ quietMenMoves p, MoveOK p m := by
  intro m hm
  unfold quietMenMoves at hm
  rw [List.mem_flatMap] at hm
  obtain ⟨frm, hfrm, hm⟩ := hm
  rw [List.mem_filterMap] at hm
  obtain ⟨st, hst, hcond⟩ := hm
  obtain ⟨hf32, htbf⟩ := bitsList_mem.mp hfrm
  revert hcond
  split
  · split
    · intro h; exact absurd h (by simp)
    · rename_i hocc
      intro h
      injection h with h
      subst h
      exact ⟨hf32, STEPS_toSq_lt hst, List.nodup_nil, by simp,
        tb_or.mpr (Or.inl htbf), fun hc => absurd hc hocc⟩
  · intro h; exact absurd h (by simp)

lemma quietKingMoves_ok (p : Position) :
    ∀ m ∈ quietKingMoves p, MoveOK p m := by
  intro m hm
  unfold quietKingMoves at hm
  rw [List.mem_flatMap] at hm
  obtain ⟨frm, hfrm, hm⟩ := hm
  rw [List.mem_flatMap] at hm
  obtain ⟨dir, _, hm⟩ := hm
  rw [List.mem_map] at hm
  obtain ⟨sq, hsq, he⟩ := hm
  obtain ⟨hf32, htbf⟩ := bitsList_mem.mp hfrm
  have hray : sq ∈ rayL frm dir := (List.takeWhile_sublist _).mem hsq
  have hfree : ¬ (occupied p).testBit sq = true := by
    have h := List.mem_takeWhile_imp hsq
    simpa using h
  subst he
  exact ⟨hf32, rayL_lt hray, List.nodup_nil, by simp,
    tb_or.mpr (Or.inr htbf), fun hc => absurd hc hfree⟩

lemma generateMoves_ok (p : Position) (hp : PosInv p) :
    ∀ m ∈ generateMoves p, MoveOK p m := by
  obtain ⟨s1, s2, s3, s4, dMK, dMOM, dMOK, dKOM, dKOK, dOMOK⟩ := side_facts p hp
  intro m hm
  simp only [generateMoves] at hm
  split at hm
  · rw [List.mem_append] at hm
    rcases hm with hm | hm
    · exact quietMenMoves_ok p m hm
    · exact quietKingMoves_ok p m hm
  · rw [List.mem_append] at hm
    rcases hm with hm | hm
    · rw [List.mem_flatMap] at hm
      obtain ⟨frm, hfrm, hm⟩ := hm
      obtain ⟨hf32, htbf⟩ := bitsList_mem.mp hfrm
      simp only [genMenCapturesFrom] at hm
      refine menDfs_sound p hp frm hf32 htbf FUEL frm _ _ _ _ [] [] ?_ m hm
      refine ⟨?_, rfl, fun j => by simp, fun j => by simp, hf32,
        fun h => dMK frm ⟨htbf, h⟩, fun _ => Or.inl rfl, List.nodup_nil,
        fun c hc => absurd hc (List.not_mem_nil c), rfl, s1, s3, s4⟩
      intro j
      constructor
      · intro h
        by_cases he : j = frm
        · exact Or.inr he
        · exact Or.inl ⟨h, he⟩
      · rintro (⟨h, _⟩ | rfl)
        · exact h
        · exact htbf
    · rw [List.mem_flatMap] at hm
      obtain ⟨frm, hfrm, hm⟩ := hm
      obtain ⟨hf32, htbf⟩ := bitsList_mem.mp hfrm
      simp only [genKingCapturesFrom] at hm
      split at hm
      · refine kingDfs_sound p hp frm hf32 htbf FUEL frm _ _ _ _ [] [] ?_ m hm
        refine ⟨rfl, ?_, fun j => by simp, fun j => by simp, hf32,
          fun h => dMK frm ⟨h, htbf⟩, fun _ => Or.inl rfl, List.nodup_nil,
          fun c hc => absurd hc (List.not_mem_nil c), rfl, s2, s3, s4⟩
        intro j
        constructor
        · intro h
          by_cases he : j = frm
          · exact Or.inr he
          · exact Or.inl ⟨h, he⟩
        · rintro (⟨h, _⟩ | rfl)
          · exact h
          · exact htbf
      · exact absurd hm (by simp)

theorem C4_reachable_bitboards_wellformed (p : Position) (hp : Reachable p) :
    PosInv p := by
  induction hp with
  | init => unfold PosInv; decide
  | step h1 h2 ih => exact applyMove_inv _ _ ih (generateMoves_ok _ ih _ h2)

theorem C4_reachable_bitboards_wellformed_witness :
    PosInv (applyMove initialPosition ⟨24, 20, [], false⟩) :=
  C4_reachable_bitboards_wellformed _
    (Reachable.step Reachable.init
      (by decide : (⟨24, 20, [], false⟩ : Move) ∈ generateMoves initialPosition))

end Makhos
